import Mathlib

/-!
Verification of the `fweb` static site generator (Rust) against its
natural-language specification.

The development is a shallow embedding of the program's pure core:

* `src/template.rs` — the shortcode engine (`find_shortcode`,
  `Shortcode::from_str`, `Shortcode::to_html`, `template`);
* `src/main.rs` — the content loader (`load_and_parse_content`,
  `parse_file`), the exporter (`export_indices_to_html`,
  `build_navigation`, `build_article_list`), asset mirroring
  (`mirror_assets`) and the top-level `Website::build` composition.

Modelling conventions:

* Rust `&str`/`String` values are `List Char` (abbreviated `Str`); the
  examples relevant here are ASCII, where Rust's byte indices coincide
  with character indices and byte-wise `str` ordering coincides with
  code-point ordering.
* Filesystem paths are lists of components (`List Str`).  A template's
  path (relative to the `templates/` directory) is kept as a single
  opaque key of type `Str`, since the program only ever uses it as a
  lookup key for reading the template file.
* The filesystem is explicit: a directory tree is an `FsTree`; reading
  templates is a function `Str → Option Str`; effects performed by the
  exporter and the asset mirror are recorded as `FsEvent` values.
* External collaborators that the spec declares out of scope
  (markdown rendering, TOML deserialization, date formatting) are
  parameters collected in the `Ext` structure.
* Fallible Rust functions returning `Result` become `Except Error _`.
  The shortcode expansion loop of `template.rs` can diverge on cyclic
  input (a hazard the spec documents), so its embedding takes a fuel
  argument and returns `none` when the fuel is exhausted; every result
  of the form `some r` is the value the Rust loop actually computes.
* `tokio::spawn`/join concurrency is modelled by sequential execution
  in join order, which is the order in which results (and the first
  error) are observed by the program.
-/

/-- Rust string data as a list of characters. -/
abbrev Str := List Char

/-- Shorthand turning a Lean string literal into `Str`. -/
def str (s : String) : Str := s.toList

/-- Boolean prefix test on character lists (Rust `str::starts_with`). -/
def isPre (pat l : Str) : Bool :=
  match pat, l with
  | a :: xs, b :: ys => a = b && isPre xs ys
  | [], _ => true
  | _ :: _, [] => false

/-- Boolean suffix test on character lists (Rust `str::ends_with`). -/
def isSuf (pat l : Str) : Bool := isPre pat.reverse l.reverse

/-- Index of the first occurrence of `pat` in `l` (Rust `str::find`):
the least index at which `pat` is a prefix of the remaining text. -/
def findSub (pat : Str) : Str → Option Nat
  | [] => if isPre pat [] then some 0 else none
  | c :: rest =>
    if isPre pat (c :: rest) then some 0
    else (findSub pat rest).map (· + 1)

/-- Rust `str::trim_start`: drop leading whitespace. -/
def trimStart (l : Str) : Str := l.dropWhile Char.isWhitespace

/-- Rust `str::trim_end`: drop trailing whitespace. -/
def trimEnd (l : Str) : Str := (l.reverse.dropWhile Char.isWhitespace).reverse

/-- Rust `str::trim`: drop whitespace at both ends. -/
def trimStr (l : Str) : Str := trimEnd (trimStart l)

/-- Rust `str::strip_prefix`: remove `pat` from the front, if present. -/
def stripPre (pat l : Str) : Option Str :=
  if isPre pat l then some (l.drop pat.length) else none

/-- Rust `str::strip_suffix`: remove `pat` from the back, if present. -/
def stripSuf (pat l : Str) : Option Str :=
  if isSuf pat l then some (l.take (l.length - pat.length)) else none

/-- The error enumeration of `src/error.rs`, restricted to the payload
data the embedded code inspects (the wrapped `std::io::Error` values are
abstracted away; `TagNotFound` and `Join` appear because `template.rs`
and `main.rs` construct them). -/
inductive Error where
  | SourceDir (p : List Str)
  | ConfigRead (p : List Str)
  | MalformedContent (p : List Str)
  | ReadInput (p : List Str)
  | WriteFile (p : List Str)
  | ParseMetadata (p : List Str)
  | ReadDirectory (p : List Str)
  | CreateDirectory (p : List Str)
  | Join
  | Copy (src dst : List Str)
  | ParseShortcode (s : Str)
  | IncludeShortcode (p : Str)
  | TagNotFound (s : Str)
deriving DecidableEq, Repr

/-- The templating context of `src/template.rs`
(`HashMap<&'static str, String>`), modelled as an association list in
which the most recent insertion comes first. -/
abbrev Context := List (Str × Str)

/-- `HashMap::get`: the binding of the most recent insertion wins. -/
def ctxLookup : Context → Str → Option Str
  | [], _ => none
  | (k, v) :: rest, key => if k = key then some v else ctxLookup rest key

/-- `HashMap::insert`: shadow any previous binding of the key. -/
def ctxInsert (ctx : Context) (k v : Str) : Context := (k, v) :: ctx

/-- Start delimiter of a tag, `TAG_START` in `template.rs`. -/
def tagStart : Str := ['{', '{']

/-- End delimiter of a tag, `TAG_END`. -/
def tagEnd : Str := ['}', '}']

/-- Start delimiter of a command, `COMMAND_START`. -/
def cmdStart : Str := ['{', '%']

/-- End delimiter of a command, `COMMAND_END`. -/
def cmdEnd : Str := ['%', '}']

/-- A parsed shortcode (`enum Shortcode` in `template.rs`). -/
inductive Shortcode where
  | includeFile (path : Str)
  | tag (name : Str)
deriving DecidableEq, Repr

/-- `Shortcode::from_str`: try the tag form `{{ name }}` first, then the
command form `{% include "path" %}`; a malformed body is a
`ParseShortcode` error. -/
def shortcodeFromStr (input : Str) : Except Error Shortcode :=
  let extractTag : Option Shortcode := do
    let inner ← stripPre tagStart input
    let inner ← stripSuf tagEnd inner
    pure (.tag (trimStr inner))
  let extractCommand : Option Shortcode := do
    let inner ← stripPre cmdStart input
    let inner ← stripSuf cmdEnd inner
    let inner := trimStr inner
    let quoted ← stripPre (str "include") inner
    let quoted := trimStart quoted
    let path ← stripPre ['"'] quoted
    let path ← stripSuf ['"'] path
    pure (.includeFile path)
  match extractTag.orElse (fun _ => extractCommand) with
  | some sc => .ok sc
  | none => .error (.ParseShortcode input)

/-- The template-file store: contents of each file below the
`templates/` directory, keyed by its path relative to that directory. -/
abbrev TemplateFs := Str → Option Str

/-- `Shortcode::to_html`: an include reads the referenced file from the
templates directory, a tag looks its name up in the context; a missing
file or missing key is a hard error. -/
def shortcodeToHtml (tfs : TemplateFs) (ctx : Context) : Shortcode → Except Error Str
  | .includeFile path =>
    match tfs path with
    | some s => .ok s
    | none => .error (.IncludeShortcode path)
  | .tag v =>
    match ctxLookup ctx v with
    | some s => .ok s
    | none => .error (.TagNotFound v)

/-- Inner loop of `find_shortcode`: scan the remaining text `l`, whose
first character sits at absolute index `abs` of the full input.  At a
`'{'` the two-character prefix decides the delimiter kind and the
matching closer is searched for; if none exists the scan resumes one
character further (`search_start_idx = start_abs + 1`). -/
def fsGo : Str → Nat → Option (Nat × Nat)
  | [], _ => none
  | c :: rest, abs =>
    if c = '{' then
      let s := c :: rest
      let endAbs : Option Nat :=
        if isPre tagStart s then
          (findSub tagEnd (s.drop 2)).map (fun i => abs + i + 2 + 2)
        else if isPre cmdStart s then
          (findSub cmdEnd (s.drop 2)).map (fun i => abs + i + 2 + 2)
        else none
      match endAbs with
      | some e => some (abs, e)
      | none => fsGo rest (abs + 1)
    else fsGo rest (abs + 1)

/-- `find_shortcode` from `template.rs`: the start and end indices of
the first complete shortcode, delimiters included. -/
def find_shortcode (input : Str) : Option (Nat × Nat) := fsGo input 0

/-- The loop of `template::template`.  `html` is the accumulated output,
`input` the remaining working text; each found shortcode is parsed,
resolved, and its replacement prepended to the rest of the input so that
replacements are rescanned.  `none` means the fuel ran out, i.e. the
Rust loop would still be running. -/
def templateLoop (tfs : TemplateFs) (ctx : Context) :
    Nat → Str → Str → Option (Except Error Str)
  | 0, _, _ => none
  | fuel + 1, html, input =>
    match find_shortcode input with
    | none => some (.ok (html ++ input))
    | some (s, e) =>
      match shortcodeFromStr ((input.drop s).take (e - s)) with
      | .error err => some (.error err)
      | .ok sc =>
        match shortcodeToHtml tfs ctx sc with
        | .error err => some (.error err)
        | .ok repl =>
          templateLoop tfs ctx fuel (html ++ input.take s) (repl ++ input.drop e)

/-- `template::template` with explicit fuel. -/
def templateRun (tfs : TemplateFs) (ctx : Context) (input : Str) (fuel : Nat) :
    Option (Except Error Str) :=
  templateLoop tfs ctx fuel [] input

/-- Specification-side predicate: position `s` of `l` opens a complete
tag, i.e. `{{` starts there and `}}` occurs somewhere at or after
`s + 2`. -/
def opensTagAt (l : Str) (s : Nat) : Prop :=
  isPre tagStart (l.drop s) = true ∧ ∃ j, isPre tagEnd (l.drop (s + 2 + j)) = true

/-- Specification-side predicate: position `s` of `l` opens a complete
command, i.e. `{%` starts there and `%}` occurs at or after `s + 2`. -/
def opensCmdAt (l : Str) (s : Nat) : Prop :=
  isPre cmdStart (l.drop s) = true ∧ ∃ j, isPre cmdEnd (l.drop (s + 2 + j)) = true

/-- Position `s` starts a complete shortcode of either kind. -/
def completeAt (l : Str) (s : Nat) : Prop := opensTagAt l s ∨ opensCmdAt l s

/-- The spec of a returned span `[s, e)`: the opener sits at `s`, the
closer matched is the first one after the opener, and `e` points just
past it. -/
def spanSpec (l : Str) (s e : Nat) : Prop :=
  (isPre tagStart (l.drop s) = true ∧
    ∃ j, isPre tagEnd (l.drop (s + 2 + j)) = true ∧
      (∀ j' < j, ¬ isPre tagEnd (l.drop (s + 2 + j')) = true) ∧
      e = s + 2 + j + 2) ∨
  (isPre cmdStart (l.drop s) = true ∧
    ∃ j, isPre cmdEnd (l.drop (s + 2 + j)) = true ∧
      (∀ j' < j, ¬ isPre cmdEnd (l.drop (s + 2 + j')) = true) ∧
      e = s + 2 + j + 2)

theorem findSub_none_iff (pat l : Str) :
    findSub pat l = none ↔ ∀ j, ¬ isPre pat (l.drop j) = true := by
  induction l with
  | nil =>
    simp only [findSub]
    constructor
    · intro h j
      by_cases hp : isPre pat [] = true
      · simp [hp] at h
      · simpa [List.drop_nil] using hp
    · intro h
      have := h 0
      simp only [List.drop_nil] at this
      simp [this]
  | cons c rest ih =>
    simp only [findSub]
    by_cases hp : isPre pat (c :: rest) = true
    · simp only [hp, if_true]
      constructor
      · intro h; cases h
      · intro h; exact absurd hp (by simpa using h 0)
    · simp only [hp, if_false]
      constructor
      · intro h j
        have hrest : findSub pat rest = none := by
          cases hfs : findSub pat rest with
          | none => rfl
          | some i => rw [hfs] at h; simp at h
        cases j with
        | zero => simpa using hp
        | succ j => exact (ih.mp hrest) j
      · intro h
        have : findSub pat rest = none := ih.mpr (fun j => by
          have := h (j + 1); simpa using this)
        simp [this]

theorem findSub_some (pat l : Str) (i : Nat) (h : findSub pat l = some i) :
    isPre pat (l.drop i) = true ∧ ∀ j < i, ¬ isPre pat (l.drop j) = true := by
  induction l generalizing i with
  | nil =>
    simp only [findSub] at h
    by_cases hp : isPre pat [] = true
    · simp only [hp, if_true, Option.some.injEq] at h
      subst h
      exact ⟨by simpa using hp, by omega⟩
    · simp [hp] at h
  | cons c rest ih =>
    simp only [findSub] at h
    by_cases hp : isPre pat (c :: rest) = true
    · simp only [hp, if_true, Option.some.injEq] at h
      subst h
      exact ⟨by simpa using hp, by omega⟩
    · simp only [hp, if_false] at h
      cases hfs : findSub pat rest with
      | none => rw [hfs] at h; simp at h
      | some i' =>
        rw [hfs] at h
        simp at h
        subst h
        obtain ⟨h1, h2⟩ := ih i' hfs
        refine ⟨by simpa using h1, ?_⟩
        intro j hj
        cases j with
        | zero => simpa using hp
        | succ j => exact h2 j (by omega)

theorem findSub_of_least (pat l : Str) (i : Nat)
    (hi : isPre pat (l.drop i) = true)
    (hmin : ∀ j < i, ¬ isPre pat (l.drop j) = true) :
    findSub pat l = some i := by
  induction l generalizing i with
  | nil =>
    have : i = 0 := by
      by_contra hne
      exact hmin 0 (by omega) (by simpa [List.drop_nil] using hi)
    subst this
    simp only [List.drop_nil] at hi
    simp [findSub, hi]
  | cons c rest ih =>
    cases i with
    | zero =>
      simp only [List.drop_zero] at hi
      simp [findSub, hi]
    | succ i =>
      have hp : ¬ isPre pat (c :: rest) = true := by
        simpa using hmin 0 (by omega)
      have : findSub pat rest = some i := by
        refine ih i (by simpa using hi) ?_
        intro j hj
        simpa using hmin (j + 1) (by omega)
      simp [findSub, hp, this]

theorem drop_shift (l : Str) (a b : Nat) : (l.drop a).drop b = l.drop (a + b) :=
  List.drop_drop b a l

theorem completeAt_cons_succ (c : Char) (l : Str) (s : Nat) :
    completeAt (c :: l) (s + 1) ↔ completeAt l s := by
  have h1 : (c :: l).drop (s + 1) = l.drop s := List.drop_succ_cons ..
  have h2 : ∀ j, (c :: l).drop (s + 1 + 2 + j) = l.drop (s + 2 + j) := by
    intro j
    have : s + 1 + 2 + j = (s + 2 + j) + 1 := by omega
    rw [this, List.drop_succ_cons]
  simp only [completeAt, opensTagAt, opensCmdAt, h1, h2]

theorem spanSpec_cons_succ (c : Char) (l : Str) (s e : Nat) :
    spanSpec (c :: l) (s + 1) (e + 1) ↔ spanSpec l s e := by
  have h1 : (c :: l).drop (s + 1) = l.drop s := List.drop_succ_cons ..
  have h2 : ∀ j, (c :: l).drop (s + 1 + 2 + j) = l.drop (s + 2 + j) := by
    intro j
    have : s + 1 + 2 + j = (s + 2 + j) + 1 := by omega
    rw [this, List.drop_succ_cons]
  simp only [spanSpec, h1, h2]
  constructor
  · rintro (⟨hp, j, hj, hmin, he⟩ | ⟨hp, j, hj, hmin, he⟩)
    · exact Or.inl ⟨hp, j, hj, hmin, by omega⟩
    · exact Or.inr ⟨hp, j, hj, hmin, by omega⟩
  · rintro (⟨hp, j, hj, hmin, he⟩ | ⟨hp, j, hj, hmin, he⟩)
    · exact Or.inl ⟨hp, j, hj, hmin, by omega⟩
    · exact Or.inr ⟨hp, j, hj, hmin, by omega⟩

theorem forall_not_complete_cons (c : Char) (l : Str) :
    (∀ s, ¬ completeAt (c :: l) s) ↔
      (¬ completeAt (c :: l) 0 ∧ ∀ s, ¬ completeAt l s) := by
  constructor
  · intro h
    refine ⟨h 0, fun s => ?_⟩
    have := h (s + 1)
    rwa [completeAt_cons_succ] at this
  · rintro ⟨h0, h⟩ s
    cases s with
    | zero => exact h0
    | succ s => rw [completeAt_cons_succ]; exact h s

theorem not_complete_head_of_not_lbrace (c : Char) (l : Str) (hc : ¬ c = '{') :
    ¬ completeAt (c :: l) 0 := by
  rintro (⟨hp, _⟩ | ⟨hp, _⟩) <;>
    · simp only [List.drop_zero] at hp
      simp [isPre, tagStart, cmdStart] at hp
      exact hc hp.1.symm

theorem tag_head_not_cmd (l : Str) (ht : isPre tagStart l = true) :
    isPre cmdStart l = false := by
  match l with
  | [] => simp [isPre, tagStart] at ht
  | [c] => simp [isPre, tagStart] at ht
  | a :: b :: rest =>
    simp only [isPre, tagStart, Bool.and_eq_true, decide_eq_true_eq] at ht
    simp only [isPre, cmdStart]
    rw [← ht.1, ← ht.2.1]
    decide

theorem cmd_head_not_tag (l : Str) (ht : isPre cmdStart l = true) :
    isPre tagStart l = false := by
  match l with
  | [] => simp [isPre, cmdStart] at ht
  | [c] => simp [isPre, cmdStart] at ht
  | a :: b :: rest =>
    simp only [isPre, cmdStart, Bool.and_eq_true, decide_eq_true_eq] at ht
    simp only [isPre, tagStart]
    rw [← ht.1, ← ht.2.1]
    decide

theorem fsGo_none_iff (l : Str) : ∀ abs, fsGo l abs = none ↔ ∀ s, ¬ completeAt l s := by
  induction l with
  | nil =>
    intro abs
    constructor
    · intro _ s
      rintro (⟨hp, _⟩ | ⟨hp, _⟩) <;> simp [isPre, tagStart, cmdStart] at hp
    · intro _; rfl
  | cons c rest ih =>
    intro abs
    rw [forall_not_complete_cons]
    by_cases hc : c = '{'
    · subst hc
      by_cases ht : isPre tagStart ('{' :: rest) = true
      · cases hf : findSub tagEnd (('{' :: rest).drop 2) with
        | some i =>
          have hf2 : findSub tagEnd rest.tail = some i := by simpa using hf
          have hfs : fsGo ('{' :: rest) abs = some (abs, abs + i + 2 + 2) := by
            simp [fsGo, ht, hf2]
          rw [hfs]
          have hcomp : completeAt ('{' :: rest) 0 := by
            left
            refine ⟨by simpa using ht, i, ?_⟩
            have h1 := (findSub_some _ _ _ hf).1
            rw [drop_shift] at h1
            simpa using h1
          simp [hcomp]
        | none =>
          have hf2 : findSub tagEnd rest.tail = none := by simpa using hf
          have hfs : fsGo ('{' :: rest) abs = fsGo rest (abs + 1) := by
            simp [fsGo, ht, hf2]
          rw [hfs, ih (abs + 1)]
          have h0 : ¬ completeAt ('{' :: rest) 0 := by
            rintro (⟨hp, j, hj⟩ | ⟨hp, j, hj⟩)
            · rw [findSub_none_iff] at hf
              refine hf j ?_
              rw [drop_shift]
              simpa using hj
            · have hnc := tag_head_not_cmd _ ht
              simp only [List.drop_zero] at hp
              rw [hnc] at hp
              cases hp
          simp [h0]
      · by_cases hcm : isPre cmdStart ('{' :: rest) = true
        · cases hf : findSub cmdEnd (('{' :: rest).drop 2) with
          | some i =>
            have hf2 : findSub cmdEnd rest.tail = some i := by simpa using hf
            have hfs : fsGo ('{' :: rest) abs = some (abs, abs + i + 2 + 2) := by
              simp [fsGo, ht, hcm, hf2]
            rw [hfs]
            have hcomp : completeAt ('{' :: rest) 0 := by
              right
              refine ⟨by simpa using hcm, i, ?_⟩
              have h1 := (findSub_some _ _ _ hf).1
              rw [drop_shift] at h1
              simpa using h1
            simp [hcomp]
          | none =>
            have hf2 : findSub cmdEnd rest.tail = none := by simpa using hf
            have hfs : fsGo ('{' :: rest) abs = fsGo rest (abs + 1) := by
              simp [fsGo, ht, hcm, hf2]
            rw [hfs, ih (abs + 1)]
            have h0 : ¬ completeAt ('{' :: rest) 0 := by
              rintro (⟨hp, j, hj⟩ | ⟨hp, j, hj⟩)
              · simp only [List.drop_zero] at hp
                rw [hp] at ht
                exact ht rfl
              · rw [findSub_none_iff] at hf
                refine hf j ?_
                rw [drop_shift]
                simpa using hj
            simp [h0]
        · have hfs : fsGo ('{' :: rest) abs = fsGo rest (abs + 1) := by
            simp [fsGo, ht, hcm]
          rw [hfs, ih (abs + 1)]
          have h0 : ¬ completeAt ('{' :: rest) 0 := by
            rintro (⟨hp, _⟩ | ⟨hp, _⟩) <;> simp only [List.drop_zero] at hp
            · exact ht hp
            · exact hcm hp
          simp [h0]
    · have hfs : fsGo (c :: rest) abs = fsGo rest (abs + 1) := by
        simp [fsGo, hc]
      rw [hfs, ih (abs + 1)]
      have h0 := not_complete_head_of_not_lbrace c rest hc
      simp [h0]

theorem fsGo_some_spec (l : Str) : ∀ (abs s e : Nat), fsGo l abs = some (s, e) →
    ∃ s0 e0, s = abs + s0 ∧ e = abs + e0 ∧ completeAt l s0 ∧
      (∀ k < s0, ¬ completeAt l k) ∧ spanSpec l s0 e0 := by
  induction l with
  | nil => intro abs s e h; simp [fsGo] at h
  | cons c rest ih =>
    intro abs s e h
    by_cases hc : c = '{'
    · subst hc
      by_cases ht : isPre tagStart ('{' :: rest) = true
      · cases hf : findSub tagEnd (('{' :: rest).drop 2) with
        | some i =>
          have hf2 : findSub tagEnd rest.tail = some i := by simpa using hf
          have hfs : fsGo ('{' :: rest) abs = some (abs, abs + i + 2 + 2) := by
            simp [fsGo, ht, hf2]
          rw [hfs] at h
          have hse : s = abs ∧ e = abs + i + 2 + 2 := by
            have := h.symm
            simp only [Option.some.injEq, Prod.mk.injEq] at this
            exact ⟨this.1, this.2⟩
          obtain ⟨rfl, rfl⟩ := hse
          have h1 := (findSub_some _ _ _ hf).1
          have h2 := (findSub_some _ _ _ hf).2
          refine ⟨0, i + 2 + 2, by omega, by omega, ?_, by omega, ?_⟩
          · left
            refine ⟨by simpa using ht, i, ?_⟩
            rw [drop_shift] at h1
            simpa using h1
          · left
            refine ⟨by simpa using ht, i, ?_, ?_, by omega⟩
            · rw [drop_shift] at h1
              simpa using h1
            · intro j' hj' hcontra
              refine h2 j' hj' ?_
              rw [drop_shift]
              simpa using hcontra
        | none =>
          have hf2 : findSub tagEnd rest.tail = none := by simpa using hf
          have hstep : fsGo ('{' :: rest) abs = fsGo rest (abs + 1) := by
            simp [fsGo, ht, hf2]
          rw [hstep] at h
          obtain ⟨s0, e0, he1, he2, hcomp, hmin, hspan⟩ := ih (abs + 1) s e h
          have h0 : ¬ completeAt ('{' :: rest) 0 := by
            rintro (⟨hp, j, hj⟩ | ⟨hp, j, hj⟩)
            · rw [findSub_none_iff] at hf
              refine hf j ?_
              rw [drop_shift]
              simpa using hj
            · have hnc := tag_head_not_cmd _ ht
              simp only [List.drop_zero] at hp
              rw [hnc] at hp
              cases hp
          refine ⟨s0 + 1, e0 + 1, by omega, by omega, ?_, ?_, ?_⟩
          · rwa [completeAt_cons_succ]
          · intro k hk
            cases k with
            | zero => exact h0
            | succ k =>
              rw [completeAt_cons_succ]
              exact hmin k (by omega)
          · rwa [spanSpec_cons_succ]
      · by_cases hcm : isPre cmdStart ('{' :: rest) = true
        · cases hf : findSub cmdEnd (('{' :: rest).drop 2) with
          | some i =>
            have hf2 : findSub cmdEnd rest.tail = some i := by simpa using hf
            have hfs : fsGo ('{' :: rest) abs = some (abs, abs + i + 2 + 2) := by
              simp [fsGo, ht, hcm, hf2]
            rw [hfs] at h
            have hse : s = abs ∧ e = abs + i + 2 + 2 := by
              have := h.symm
              simp only [Option.some.injEq, Prod.mk.injEq] at this
              exact ⟨this.1, this.2⟩
            obtain ⟨rfl, rfl⟩ := hse
            have h1 := (findSub_some _ _ _ hf).1
            have h2 := (findSub_some _ _ _ hf).2
            refine ⟨0, i + 2 + 2, by omega, by omega, ?_, by omega, ?_⟩
            · right
              refine ⟨by simpa using hcm, i, ?_⟩
              rw [drop_shift] at h1
              simpa using h1
            · right
              refine ⟨by simpa using hcm, i, ?_, ?_, by omega⟩
              · rw [drop_shift] at h1
                simpa using h1
              · intro j' hj' hcontra
                refine h2 j' hj' ?_
                rw [drop_shift]
                simpa using hcontra
          | none =>
            have hf2 : findSub cmdEnd rest.tail = none := by simpa using hf
            have hstep : fsGo ('{' :: rest) abs = fsGo rest (abs + 1) := by
              simp [fsGo, ht, hcm, hf2]
            rw [hstep] at h
            obtain ⟨s0, e0, he1, he2, hcomp, hmin, hspan⟩ := ih (abs + 1) s e h
            have h0 : ¬ completeAt ('{' :: rest) 0 := by
              rintro (⟨hp, j, hj⟩ | ⟨hp, j, hj⟩)
              · simp only [List.drop_zero] at hp
                rw [hp] at ht
                exact ht rfl
              · rw [findSub_none_iff] at hf
                refine hf j ?_
                rw [drop_shift]
                simpa using hj
            refine ⟨s0 + 1, e0 + 1, by omega, by omega, ?_, ?_, ?_⟩
            · rwa [completeAt_cons_succ]
            · intro k hk
              cases k with
              | zero => exact h0
              | succ k =>
                rw [completeAt_cons_succ]
                exact hmin k (by omega)
            · rwa [spanSpec_cons_succ]
        · have hstep : fsGo ('{' :: rest) abs = fsGo rest (abs + 1) := by
            simp [fsGo, ht, hcm]
          rw [hstep] at h
          obtain ⟨s0, e0, he1, he2, hcomp, hmin, hspan⟩ := ih (abs + 1) s e h
          have h0 : ¬ completeAt ('{' :: rest) 0 := by
            rintro (⟨hp, _⟩ | ⟨hp, _⟩) <;> simp only [List.drop_zero] at hp
            · exact ht hp
            · exact hcm hp
          refine ⟨s0 + 1, e0 + 1, by omega, by omega, ?_, ?_, ?_⟩
          · rwa [completeAt_cons_succ]
          · intro k hk
            cases k with
            | zero => exact h0
            | succ k =>
              rw [completeAt_cons_succ]
              exact hmin k (by omega)
          · rwa [spanSpec_cons_succ]
    · have hstep : fsGo (c :: rest) abs = fsGo rest (abs + 1) := by
        simp [fsGo, hc]
      rw [hstep] at h
      obtain ⟨s0, e0, he1, he2, hcomp, hmin, hspan⟩ := ih (abs + 1) s e h
      have h0 := not_complete_head_of_not_lbrace c rest hc
      refine ⟨s0 + 1, e0 + 1, by omega, by omega, ?_, ?_, ?_⟩
      · rwa [completeAt_cons_succ]
      · intro k hk
        cases k with
        | zero => exact h0
        | succ k =>
          rw [completeAt_cons_succ]
          exact hmin k (by omega)
      · rwa [spanSpec_cons_succ]

/-- `find_shortcode` returns `none` exactly when no position of the
input starts a complete shortcode. -/
theorem find_shortcode_none_iff (l : Str) :
    find_shortcode l = none ↔ ∀ s, ¬ completeAt l s :=
  fsGo_none_iff l 0

/-- When `find_shortcode` returns a span, its start is the leftmost
position opening a complete shortcode and its end is just past the first
matching closer. -/
theorem find_shortcode_some_spec (l : Str) (s e : Nat)
    (h : find_shortcode l = some (s, e)) :
    completeAt l s ∧ (∀ k < s, ¬ completeAt l k) ∧ spanSpec l s e := by
  obtain ⟨s0, e0, h1, h2, h3, h4, h5⟩ := fsGo_some_spec l 0 s e h
  have hs : s = s0 := by omega
  have he : e = e0 := by omega
  subst hs; subst he
  exact ⟨h3, h4, h5⟩

theorem isPre_append_self (p r : Str) : isPre p (p ++ r) = true := by
  induction p with
  | nil => rfl
  | cons a xs ih => simp [isPre, ih]

theorem stripPre_append (p r : Str) : stripPre p (p ++ r) = some r := by
  simp [stripPre, isPre_append_self, List.drop_left]

theorem stripSuf_append (p r : Str) : stripSuf p (r ++ p) = some r := by
  have hs : isSuf p (r ++ p) = true := by
    simp only [isSuf, List.reverse_append]
    exact isPre_append_self _ _
  simp only [stripSuf, hs, if_true, List.length_append]
  have : r.length + p.length - p.length = r.length := by omega
  rw [this, List.take_left]

theorem templateLoop_done (tfs : TemplateFs) (ctx : Context) (fuel : Nat)
    (html input : Str) (h : find_shortcode input = none) :
    templateLoop tfs ctx (fuel + 1) html input = some (.ok (html ++ input)) := by
  simp [templateLoop, h]

theorem templateLoop_step (tfs : TemplateFs) (ctx : Context) (fuel : Nat)
    (html input : Str) (s e : Nat) (sc : Shortcode) (repl : Str)
    (h1 : find_shortcode input = some (s, e))
    (h2 : shortcodeFromStr ((input.drop s).take (e - s)) = .ok sc)
    (h3 : shortcodeToHtml tfs ctx sc = .ok repl) :
    templateLoop tfs ctx (fuel + 1) html input =
      templateLoop tfs ctx fuel (html ++ input.take s) (repl ++ input.drop e) := by
  simp [templateLoop, h1, h2, h3]

theorem templateLoop_resolve_error (tfs : TemplateFs) (ctx : Context) (fuel : Nat)
    (html input : Str) (s e : Nat) (sc : Shortcode) (err : Error)
    (h1 : find_shortcode input = some (s, e))
    (h2 : shortcodeFromStr ((input.drop s).take (e - s)) = .ok sc)
    (h3 : shortcodeToHtml tfs ctx sc = .error err) :
    templateLoop tfs ctx (fuel + 1) html input = some (.error err) := by
  simp [templateLoop, h1, h2, h3]

/-- C4: `find_shortcode` returns the span of the leftmost complete
shortcode, with the end index pointing just past the first matching
closer; an input with no complete shortcode yields `None` (a lone `{`
merely makes the scan continue past it, it is never an error); and on
`"abcd{{ 1234 }}asdf"` the detected span is exactly `(4, 14)`. -/
theorem C4_find_shortcode_spec :
    find_shortcode (str "abcd\x7b\x7b 1234 \x7d\x7dasdf") = some (4, 14) ∧
    (∀ l : Str, find_shortcode l = none ↔ ∀ s, ¬ completeAt l s) ∧
    (∀ (l : Str) (s e : Nat), find_shortcode l = some (s, e) →
      completeAt l s ∧ (∀ k < s, ¬ completeAt l k) ∧ spanSpec l s e) := by
  refine ⟨by decide, fun l => find_shortcode_none_iff l, fun l s e h => find_shortcode_some_spec l s e h⟩

/-- Witness for C4 at the spec's concrete example. -/
theorem C4_find_shortcode_spec_witness :
    completeAt (str "abcd\x7b\x7b 1234 \x7d\x7dasdf") 4 ∧
      (∀ k < 4, ¬ completeAt (str "abcd\x7b\x7b 1234 \x7d\x7dasdf") k) ∧
      spanSpec (str "abcd\x7b\x7b 1234 \x7d\x7dasdf") 4 14 :=
  C4_find_shortcode_spec.2.2 (str "abcd\x7b\x7b 1234 \x7d\x7dasdf") 4 14 (by decide)

/-- C9: a template containing no complete `\x7b\x7b ... \x7d\x7d` tag
and no complete `\x7b% ... %\x7d` command is returned unchanged by the
shortcode engine, for every context and template store, and no error is
produced. -/
theorem C9_literal_identity (tfs : TemplateFs) (ctx : Context) (input : Str)
    (fuel : Nat) (h : ∀ s, ¬ completeAt input s) :
    templateRun tfs ctx input (fuel + 1) = some (.ok input) := by
  have hn : find_shortcode input = none := (find_shortcode_none_iff input).mpr h
  rw [templateRun, templateLoop_done tfs ctx fuel [] input hn]
  simp

/-- Witness for C9: literal text containing a lone `\x7b` is returned
unchanged. -/
theorem C9_literal_identity_witness :
    templateRun (fun _ => none) [] (str "hello \x7bworld") 1 =
      some (.ok (str "hello \x7bworld")) :=
  C9_literal_identity (fun _ => none) [] (str "hello \x7bworld") 0
    ((find_shortcode_none_iff (str "hello \x7bworld")).mp (by decide))

theorem shortcodeFromStr_tag (name : Str) :
    shortcodeFromStr (tagStart ++ name ++ tagEnd) = .ok (.tag (trimStr name)) := by
  have h1 : stripPre tagStart (tagStart ++ (name ++ tagEnd)) = some (name ++ tagEnd) :=
    stripPre_append _ _
  have h2 : stripSuf tagEnd (name ++ tagEnd) = some name := stripSuf_append _ _
  simp [shortcodeFromStr, Option.orElse, h1, h2]

/-- C3: resolving a tag goes through the whitespace-trimmed name — any
input `\x7b\x7b name \x7d\x7d` parses to `Tag(trim name)`; the whole
expansion of `"\x7b\x7b test \x7d\x7d"` returns the context value bound
to `"test"` when it is present (and the replacement contains no further
shortcode), and aborts with the hard error `TagNotFound "test"` and no
output when the key is absent; with context `{test: "value"}` the result
is exactly `"value"`. -/
theorem C3_tag_resolution :
    (∀ name : Str, shortcodeFromStr (tagStart ++ name ++ tagEnd) = .ok (.tag (trimStr name))) ∧
    (∀ (tfs : TemplateFs) (ctx : Context) (v : Str) (n : Nat),
      ctxLookup ctx (str "test") = some v → (∀ s, ¬ completeAt v s) →
      templateRun tfs ctx (str "\x7b\x7b test \x7d\x7d") (n + 2) = some (.ok v)) ∧
    (∀ (tfs : TemplateFs) (ctx : Context) (n : Nat),
      ctxLookup ctx (str "test") = none →
      templateRun tfs ctx (str "\x7b\x7b test \x7d\x7d") (n + 1) =
        some (.error (.TagNotFound (str "test")))) ∧
    templateRun (fun _ => none) [(str "test", str "value")]
      (str "\x7b\x7b test \x7d\x7d") 2 = some (.ok (str "value")) := by
  refine ⟨shortcodeFromStr_tag, ?_, ?_, by rfl⟩
  · intro tfs ctx v n hl hv
    have h1 : find_shortcode (str "\x7b\x7b test \x7d\x7d") = some (0, 10) := by decide
    have h2 : shortcodeFromStr (((str "\x7b\x7b test \x7d\x7d").drop 0).take (10 - 0)) =
        .ok (.tag (str "test")) := by rfl
    have h3 : shortcodeToHtml tfs ctx (.tag (str "test")) = .ok v := by
      simp [shortcodeToHtml, hl]
    rw [templateRun, templateLoop_step tfs ctx (n + 1) [] _ 0 10 _ v h1 h2 h3]
    have h4 : find_shortcode (v ++ (str "\x7b\x7b test \x7d\x7d").drop 10) = none := by
      have : (str "\x7b\x7b test \x7d\x7d").drop 10 = [] := by decide
      rw [this, List.append_nil]
      exact (find_shortcode_none_iff v).mpr hv
    rw [templateLoop_done tfs ctx n _ _ h4]
    have : (str "\x7b\x7b test \x7d\x7d").drop 10 = [] := by decide
    simp [this]
  · intro tfs ctx n hl
    have h1 : find_shortcode (str "\x7b\x7b test \x7d\x7d") = some (0, 10) := by decide
    have h2 : shortcodeFromStr (((str "\x7b\x7b test \x7d\x7d").drop 0).take (10 - 0)) =
        .ok (.tag (str "test")) := by rfl
    have h3 : shortcodeToHtml tfs ctx (.tag (str "test")) =
        .error (.TagNotFound (str "test")) := by
      simp [shortcodeToHtml, hl]
    rw [templateRun, templateLoop_resolve_error tfs ctx n [] _ 0 10 _ _ h1 h2 h3]

/-- Witness for C3 at the spec's two concrete scenarios. -/
theorem C3_tag_resolution_witness :
    templateRun (fun _ => none) [(str "test", str "value")]
        (str "\x7b\x7b test \x7d\x7d") 2 = some (.ok (str "value")) ∧
    templateRun (fun _ => none) [] (str "\x7b\x7b test \x7d\x7d") 1 =
        some (.error (.TagNotFound (str "test"))) :=
  ⟨C3_tag_resolution.2.1 (fun _ => none) [(str "test", str "value")] (str "value") 0
      (by rfl) ((find_shortcode_none_iff (str "value")).mp (by decide)),
    C3_tag_resolution.2.2.1 (fun _ => none) [] 0 rfl⟩

/-- Insertion step of the comparator-based sort used to model Rust's
slice sorts: `x` is placed before the first element `y` with `le x y`. -/
def insertLe {α : Type} (le : α → α → Bool) (x : α) : List α → List α
  | [] => [x]
  | y :: ys => if le x y then x :: y :: ys else y :: insertLe le x ys

/-- Comparator-based sort modelling Rust's `sort_by_key` /
`sort_unstable_by`: the output is ordered by `le` and is a permutation
of the input; processing the original list head-first makes the sort
stable (ties keep discovery order), which matches `sort_by_key` and is
one allowed outcome of `sort_unstable_by`. -/
def sortLe {α : Type} (le : α → α → Bool) : List α → List α
  | [] => []
  | x :: xs => insertLe le x (sortLe le xs)

theorem insertLe_perm {α : Type} (le : α → α → Bool) (x : α) (l : List α) :
    List.Perm (insertLe le x l) (x :: l) := by
  induction l with
  | nil => exact List.Perm.refl _
  | cons y ys ih =>
    by_cases h : le x y = true
    · simp [insertLe, h]
    · simp only [insertLe, h, if_false]
      exact ((ih.cons y).trans (List.Perm.swap x y ys))

theorem sortLe_perm {α : Type} (le : α → α → Bool) (l : List α) :
    List.Perm (sortLe le l) l := by
  induction l with
  | nil => exact List.Perm.refl _
  | cons x xs ih => exact (insertLe_perm le x (sortLe le xs)).trans (ih.cons x)

theorem mem_insertLe {α : Type} (le : α → α → Bool) (x z : α) (l : List α) :
    z ∈ insertLe le x l ↔ z = x ∨ z ∈ l := by
  rw [(insertLe_perm le x l).mem_iff]
  simp

theorem insertLe_sorted {α : Type} (le : α → α → Bool)
    (htot : ∀ a b, le a b = true ∨ le b a = true)
    (htrans : ∀ a b c, le a b = true → le b c = true → le a c = true)
    (x : α) (l : List α) (hl : l.Pairwise (fun a b => le a b = true)) :
    (insertLe le x l).Pairwise (fun a b => le a b = true) := by
  induction l with
  | nil => simp [insertLe]
  | cons y ys ih =>
    rcases List.pairwise_cons.mp hl with ⟨hy, hys⟩
    by_cases h : le x y = true
    · simp only [insertLe, h, if_true]
      refine List.pairwise_cons.mpr ⟨?_, hl⟩
      intro z hz
      rcases List.mem_cons.mp hz with rfl | hz
      · exact h
      · exact htrans x y z h (hy z hz)
    · simp only [insertLe, h, if_false]
      refine List.pairwise_cons.mpr ⟨?_, ih hys⟩
      intro z hz
      rcases (mem_insertLe le x z ys).mp hz with rfl | hz
      · exact (htot z y).resolve_left h
      · exact hy z hz

theorem sortLe_sorted {α : Type} (le : α → α → Bool)
    (htot : ∀ a b, le a b = true ∨ le b a = true)
    (htrans : ∀ a b c, le a b = true → le b c = true → le a c = true)
    (l : List α) :
    (sortLe le l).Pairwise (fun a b => le a b = true) := by
  induction l with
  | nil => simp [sortLe]
  | cons x xs ih => exact insertLe_sorted le htot htrans x (sortLe le xs) ih

theorem insertLe_filter_key {α : Type} (key : α → Nat) (k : Nat)
    (x : α) (l : List α) :
    (insertLe (fun a b => decide (key a ≤ key b)) x l).filter (fun a => key a == k) =
      if key x = k then x :: l.filter (fun a => key a == k)
      else l.filter (fun a => key a == k) := by
  induction l with
  | nil =>
    by_cases hx : key x = k <;> simp [insertLe, List.filter_cons, hx]
  | cons y ys ih =>
    by_cases h : key x ≤ key y
    · have hins : insertLe (fun a b => decide (key a ≤ key b)) x (y :: ys) = x :: y :: ys := by
        simp [insertLe, h]
      rw [hins]
      by_cases hx : key x = k <;> simp [List.filter_cons, hx]
    · have hins : insertLe (fun a b => decide (key a ≤ key b)) x (y :: ys) =
          y :: insertLe (fun a b => decide (key a ≤ key b)) x ys := by
        simp [insertLe, h]
      rw [hins, List.filter_cons, List.filter_cons, ih]
      by_cases hx : key x = k
      · have hy : ¬ key y = k := by omega
        simp [hx, hy]
      · by_cases hy : key y = k <;> simp [hx, hy]

theorem sortLe_filter_key {α : Type} (key : α → Nat) (k : Nat) (l : List α) :
    (sortLe (fun a b => decide (key a ≤ key b)) l).filter (fun a => key a == k) =
      l.filter (fun a => key a == k) := by
  induction l with
  | nil => rfl
  | cons x xs ih =>
    show (insertLe _ x (sortLe _ xs)).filter _ = _
    rw [insertLe_filter_key key k x (sortLe _ xs)]
    by_cases hx : key x = k <;> simp [hx, ih]

/-- `enum SortOrder` from `main.rs`. -/
inductive SortOrder where
  | title
  | date
  | weight
deriving DecidableEq, Repr

/-- `struct PageMetadata` from `main.rs`.  `date` is abstracted to an
integer timestamp (the `OffsetDateTime` values form a linear order and
only their ordering is used); `filepath` is the content-relative path as
components; `template` is the path key relative to `templates/`. -/
structure PageMetadata where
  id : Str
  title : Str
  display_in_nav : Option Nat
  weight : Option Int
  excerpt : Option Str
  date : Option Int
  filepath : List Str
  template : Str
deriving DecidableEq, Repr

/-- `struct Page` from `main.rs`. -/
structure Page where
  metadata : PageMetadata
  html : Str
deriving DecidableEq, Repr

/-- `struct IndexMetadata` from `main.rs`. -/
structure IndexMetadata where
  title : Str
  display_in_nav : Option Nat
  sort_by : SortOrder
  template : Str
  filepath : List Str
deriving DecidableEq, Repr

/-- `struct Index` from `main.rs`. -/
structure Index where
  metadata : IndexMetadata
  html : Str
  pages : List Page
deriving DecidableEq, Repr

/-- `Ord::cmp` on integers (models comparison of dates and weights). -/
def intCmp (x y : Int) : Ordering :=
  if x < y then .lt else if y < x then .gt else .eq

/-- Lexicographic `Ord::cmp` on strings (`str::cmp`; byte-wise order on
UTF-8 equals code-point order). -/
def lexCmp : Str → Str → Ordering
  | [], [] => .eq
  | [], _ :: _ => .lt
  | _ :: _, [] => .gt
  | x :: xs, y :: ys =>
    if x < y then .lt else if y < x then .gt else lexCmp xs ys

/-- Derived `Ord` on `Option<T>`: `None` is smaller than `Some(_)`. -/
def cmpOpt {α : Type} (c : α → α → Ordering) (a b : Option α) : Ordering :=
  match a, b with
  | some x, some y => c x y
  | some _, none => .gt
  | none, some _ => .lt
  | none, none => .eq

/-- The comparator closure passed to `sort_unstable_by` in
`load_and_parse_content` (`main.rs` lines 309–318). -/
def pageCmp (o : SortOrder) (p1 p2 : Page) : Ordering :=
  match o with
  | .title => lexCmp p1.metadata.title p2.metadata.title
  | .date => cmpOpt intCmp p2.metadata.date p1.metadata.date
  | .weight => cmpOpt intCmp p1.metadata.weight p2.metadata.weight

/-- The non-strict comparison derived from the comparator: `p` may come
before `q` whenever the comparator does not order `p` after `q`. -/
def pageLeB (o : SortOrder) (p q : Page) : Bool :=
  decide (pageCmp o p q ≠ Ordering.gt)

/-- `index.pages.sort_unstable_by(...)`: sort by the comparator of the
index's `sort_by` policy. -/
def sortPages (o : SortOrder) (ps : List Page) : List Page :=
  sortLe (pageLeB o) ps

/-- Specification-side order on optional values: an absent value is
smaller than any present value. -/
def optLe (a b : Option Int) : Prop :=
  match a, b with
  | none, _ => True
  | some _, none => False
  | some x, some y => x ≤ y

/-- Specification-side reflexive lexicographic order on titles. -/
def titleLe (a b : Str) : Prop := a = b ∨ List.Lex (· < ·) a b

theorem intCmp_ne_gt (x y : Int) : intCmp x y ≠ .gt ↔ x ≤ y := by
  unfold intCmp
  split_ifs with h1 h2
  · simp; omega
  · simp; omega
  · simp; omega

theorem cmpOpt_int_ne_gt (a b : Option Int) :
    cmpOpt intCmp a b ≠ .gt ↔ optLe a b := by
  cases a <;> cases b <;> simp [cmpOpt, optLe, intCmp_ne_gt]

theorem lexCmp_eq_eq (a b : Str) : lexCmp a b = .eq ↔ a = b := by
  induction a generalizing b with
  | nil => cases b <;> simp [lexCmp]
  | cons x xs ih =>
    cases b with
    | nil => simp [lexCmp]
    | cons y ys =>
      unfold lexCmp
      split_ifs with h1 h2
      · constructor
        · intro h; exact h.elim
        · intro h
          injection h with he _
          subst he
          exact absurd h1 (lt_irrefl x)
      · constructor
        · intro h; exact h.elim
        · intro h
          injection h with he _
          subst he
          exact absurd h2 (lt_irrefl x)
      · have hxy : x = y := le_antisymm (not_lt.mp h2) (not_lt.mp h1)
        subst hxy
        constructor
        · intro h
          rw [(ih ys).mp h]
        · intro h
          injection h with _ ht
          exact (ih ys).mpr ht

theorem lexCmp_eq_lt (a b : Str) : lexCmp a b = .lt ↔ List.Lex (· < ·) a b := by
  induction a generalizing b with
  | nil =>
    cases b with
    | nil => simp [lexCmp]
    | cons y ys => simp [lexCmp]; exact List.Lex.nil
  | cons x xs ih =>
    cases b with
    | nil =>
      constructor
      · intro h; exact absurd h (by simp [lexCmp])
      · intro h; exact absurd h (List.Lex.not_nil_right _ _)
    | cons y ys =>
      unfold lexCmp
      split_ifs with h1 h2
      · constructor
        · intro _; exact List.Lex.rel h1
        · intro _; rfl
      · constructor
        · intro h; exact h.elim
        · intro h
          cases h with
          | cons h => exact absurd h2 (lt_irrefl _)
          | rel h => exact absurd (h.trans h2) (lt_irrefl _)
      · have hxy : x = y := le_antisymm (not_lt.mp h2) (not_lt.mp h1)
        subst hxy
        rw [ih ys]
        constructor
        · intro h; exact List.Lex.cons h
        · intro h
          cases h with
          | cons h => exact h
          | rel h => exact absurd h (lt_irrefl _)

theorem lexCmp_ne_gt (a b : Str) : lexCmp a b ≠ .gt ↔ titleLe a b := by
  constructor
  · intro h
    cases hv : lexCmp a b with
    | lt => exact Or.inr ((lexCmp_eq_lt a b).mp hv)
    | eq => exact Or.inl ((lexCmp_eq_eq a b).mp hv)
    | gt => exact absurd hv h
  · rintro (rfl | h)
    · rw [(lexCmp_eq_eq a a).mpr rfl]; simp
    · rw [(lexCmp_eq_lt a b).mpr h]; simp

theorem lexCmp_total (a b : Str) : lexCmp a b ≠ .gt ∨ lexCmp b a ≠ .gt := by
  induction a generalizing b with
  | nil =>
    cases b <;> simp [lexCmp]
  | cons x xs ih =>
    cases b with
    | nil => simp [lexCmp]
    | cons y ys =>
      rcases lt_trichotomy x y with h | h | h
      · left
        unfold lexCmp
        simp [h]
      · subst h
        rcases ih ys with hl | hr
        · left
          unfold lexCmp
          simp [lt_irrefl, hl]
        · right
          unfold lexCmp
          simp [lt_irrefl, hr]
      · right
        unfold lexCmp
        simp [h]

theorem lexCmp_trans (a b c : Str) (h1 : lexCmp a b ≠ .gt) (h2 : lexCmp b c ≠ .gt) :
    lexCmp a c ≠ .gt := by
  induction a generalizing b c with
  | nil => cases c <;> simp [lexCmp]
  | cons x xs ih =>
    cases b with
    | nil => simp [lexCmp] at h1
    | cons y ys =>
      cases c with
      | nil => simp [lexCmp] at h2
      | cons z zs =>
        have hxy : x ≤ y := by
          by_contra hcon
          have hlt : y < x := not_le.mp hcon
          unfold lexCmp at h1
          rw [if_neg (asymm hlt), if_pos hlt] at h1
          exact h1 rfl
        have hyz : y ≤ z := by
          by_contra hcon
          have hlt : z < y := not_le.mp hcon
          unfold lexCmp at h2
          rw [if_neg (asymm hlt), if_pos hlt] at h2
          exact h2 rfl
        unfold lexCmp
        split_ifs with g1 g2
        · simp
        · exact absurd (lt_of_lt_of_le g2 (hxy.trans hyz)) (lt_irrefl z)
        · have hxz : x = z := le_antisymm (hxy.trans hyz) (not_lt.mp g1)
          have hyx : y = x := le_antisymm (by rw [hxz]; exact hyz) hxy
          subst hyx
          have h1' : lexCmp xs ys ≠ .gt := by
            unfold lexCmp at h1
            rwa [if_neg (lt_irrefl y), if_neg (lt_irrefl y)] at h1
          have h2' : lexCmp ys zs ≠ .gt := by
            unfold lexCmp at h2
            have hyz' : y = z := hxz
            subst hyz'
            rwa [if_neg (lt_irrefl y), if_neg (lt_irrefl y)] at h2
          exact ih ys zs h1' h2'

theorem optLe_total (a b : Option Int) : optLe a b ∨ optLe b a := by
  cases a <;> cases b <;> simp [optLe] <;> omega

theorem optLe_trans (a b c : Option Int) (h1 : optLe a b) (h2 : optLe b c) :
    optLe a c := by
  cases a <;> cases b <;> cases c <;> simp [optLe] at * <;> omega

theorem pageLeB_total (o : SortOrder) (p q : Page) :
    pageLeB o p q = true ∨ pageLeB o q p = true := by
  cases o <;> simp only [pageLeB, pageCmp, decide_eq_true_eq]
  · exact lexCmp_total _ _
  · rcases cmpOpt_int_ne_gt q.metadata.date p.metadata.date |>.mpr
      |> fun _ => optLe_total q.metadata.date p.metadata.date with h | h
    · exact Or.inl ((cmpOpt_int_ne_gt _ _).mpr h)
    · exact Or.inr ((cmpOpt_int_ne_gt _ _).mpr h)
  · rcases optLe_total p.metadata.weight q.metadata.weight with h | h
    · exact Or.inl ((cmpOpt_int_ne_gt _ _).mpr h)
    · exact Or.inr ((cmpOpt_int_ne_gt _ _).mpr h)

theorem pageLeB_trans (o : SortOrder) (p q r : Page)
    (h1 : pageLeB o p q = true) (h2 : pageLeB o q r = true) :
    pageLeB o p r = true := by
  cases o <;> simp only [pageLeB, pageCmp, decide_eq_true_eq] at *
  · exact lexCmp_trans _ _ _ h1 h2
  · exact (cmpOpt_int_ne_gt _ _).mpr
      (optLe_trans _ _ _ ((cmpOpt_int_ne_gt _ _).mp h2) ((cmpOpt_int_ne_gt _ _).mp h1))
  · exact (cmpOpt_int_ne_gt _ _).mpr
      (optLe_trans _ _ _ ((cmpOpt_int_ne_gt _ _).mp h1) ((cmpOpt_int_ne_gt _ _).mp h2))

/-- Concrete page with only a date, used in the spec's sorting
scenario. -/
def datedPage (name : String) (d : Int) : Page :=
  { metadata :=
      { id := str name
        title := str name
        display_in_nav := none
        weight := none
        excerpt := none
        date := some d
        filepath := [str name]
        template := str "page.html" }
    html := [] }

/-- C5: after loading, each index's pages are ordered by its `sort_by`
policy — `Title` lexicographically ascending, `Date` descending with
absent dates smallest (hence listed last), `Weight` ascending with
absent weights smallest — and the sorted sequence is a permutation of
the parsed pages.  The spec's concrete scenario (dates 2023-01-01,
2023-03-01, 2023-02-01 sorted by date) comes out March, February,
January. -/
theorem C5_sort_policy :
    (∀ ps : List Page, List.Perm (sortPages .title ps) ps ∧
      (sortPages .title ps).Pairwise
        (fun p q => titleLe p.metadata.title q.metadata.title)) ∧
    (∀ ps : List Page, List.Perm (sortPages .date ps) ps ∧
      (sortPages .date ps).Pairwise
        (fun p q => optLe q.metadata.date p.metadata.date)) ∧
    (∀ ps : List Page, List.Perm (sortPages .weight ps) ps ∧
      (sortPages .weight ps).Pairwise
        (fun p q => optLe p.metadata.weight q.metadata.weight)) ∧
    sortPages .date
        [datedPage "jan" 20230101, datedPage "mar" 20230301, datedPage "feb" 20230201] =
      [datedPage "mar" 20230301, datedPage "feb" 20230201, datedPage "jan" 20230101] := by
  refine ⟨fun ps => ⟨sortLe_perm _ ps, ?_⟩, fun ps => ⟨sortLe_perm _ ps, ?_⟩,
    fun ps => ⟨sortLe_perm _ ps, ?_⟩, by rfl⟩
  · have h := sortLe_sorted (pageLeB .title) (pageLeB_total .title)
      (pageLeB_trans .title) ps
    refine h.imp ?_
    intro p q hpq
    simp only [pageLeB, pageCmp, decide_eq_true_eq] at hpq
    exact (lexCmp_ne_gt _ _).mp hpq
  · have h := sortLe_sorted (pageLeB .date) (pageLeB_total .date)
      (pageLeB_trans .date) ps
    refine h.imp ?_
    intro p q hpq
    simp only [pageLeB, pageCmp, decide_eq_true_eq] at hpq
    exact (cmpOpt_int_ne_gt _ _).mp hpq
  · have h := sortLe_sorted (pageLeB .weight) (pageLeB_total .weight)
      (pageLeB_trans .weight) ps
    refine h.imp ?_
    intro p q hpq
    simp only [pageLeB, pageCmp, decide_eq_true_eq] at hpq
    exact (cmpOpt_int_ne_gt _ _).mp hpq

/-- `PathBuf::from("/").join(dir)` rendered with `display()`: the
components joined by `/` behind a leading slash. -/
def pathStr (dir : List Str) : Str := '/' :: List.intercalate (str "/") dir

/-- The `<a>` fragment pushed for a visible index in `build_navigation`
(`main.rs` lines 426–437): the root index (whose rendered path is just
`/`) links to `/`. -/
def indexNavLink (idx : Index) : Str :=
  let path := pathStr idx.metadata.filepath.dropLast
  if path.length > 1 then
    str "<a href=\"" ++ path ++ str "/\">" ++ idx.metadata.title ++ str "</a>\n"
  else
    str "<a href=\"/\">" ++ idx.metadata.title ++ str "</a>\n"

/-- The `<a>` fragment pushed for a visible page in `build_navigation`
(`main.rs` lines 442–454). -/
def pageNavLink (idx : Index) (p : Page) : Str :=
  str "<a href=\"" ++ pathStr (idx.metadata.filepath.dropLast ++ [p.metadata.id]) ++
    str "/\">" ++ p.metadata.title ++ str "</a>\n"

/-- The `navs` vector of `build_navigation` before sorting: for each
index with `display_in_nav` set, push its link and then the links of its
pages with `display_in_nav` set; pages of indices without
`display_in_nav` are never visited. -/
def navEntries (indices : List Index) : List (Nat × Str) :=
  indices.foldl (fun navs index =>
    match index.metadata.display_in_nav with
    | none => navs
    | some i =>
      (index.pages.foldl (fun navs page =>
        match page.metadata.display_in_nav with
        | none => navs
        | some j => navs ++ [(j, pageNavLink index page)])
        (navs ++ [(i, indexNavLink index)]))) []

/-- `navs.sort_by_key(|(i, _nav)| *i)` — a stable ascending sort on the
position key. -/
def navSorted (indices : List Index) : List (Nat × Str) :=
  sortLe (fun a b => decide (a.1 ≤ b.1)) (navEntries indices)

/-- `build_navigation` from `main.rs`: concatenate the sorted link
fragments. -/
def build_navigation (indices : List Index) : Str :=
  List.join ((navSorted indices).map Prod.snd)

/-- Modelled from the amended claim wording: the nav units contributed
by one index — nothing if its `display_in_nav` is absent, otherwise its
own link followed by the links of exactly those of its pages whose
`display_in_nav` is set. -/
def specNavUnits (idx : Index) : List (Nat × Str) :=
  match idx.metadata.display_in_nav with
  | none => []
  | some i =>
    (i, indexNavLink idx) ::
      idx.pages.filterMap
        (fun p => p.metadata.display_in_nav.map (fun j => (j, pageNavLink idx p)))

theorem navPagesFold (idx : Index) (ps : List Page) (acc : List (Nat × Str)) :
    ps.foldl (fun navs page =>
        match page.metadata.display_in_nav with
        | none => navs
        | some j => navs ++ [(j, pageNavLink idx page)]) acc =
      acc ++ ps.filterMap
        (fun p => p.metadata.display_in_nav.map (fun j => (j, pageNavLink idx p))) := by
  induction ps generalizing acc with
  | nil => simp
  | cons p ps ih =>
    cases hd : p.metadata.display_in_nav with
    | none => simp [List.foldl_cons, hd, ih]
    | some j => simp [List.foldl_cons, hd, ih]

theorem navEntries_eq_bind_aux (indices : List Index) :
    ∀ acc : List (Nat × Str),
      indices.foldl (fun navs index =>
        match index.metadata.display_in_nav with
        | none => navs
        | some i =>
          (index.pages.foldl (fun navs page =>
            match page.metadata.display_in_nav with
            | none => navs
            | some j => navs ++ [(j, pageNavLink index page)])
            (navs ++ [(i, indexNavLink index)]))) acc =
      acc ++ indices.bind specNavUnits := by
  induction indices with
  | nil => intro acc; simp
  | cons idx rest ih =>
    intro acc
    cases hd : idx.metadata.display_in_nav with
    | none => simp [List.foldl_cons, hd, ih, specNavUnits]
    | some i =>
      simp only [List.foldl_cons, hd]
      rw [navPagesFold, ih]
      simp [specNavUnits, hd, List.append_assoc]

theorem navEntries_eq_bind (indices : List Index) :
    navEntries indices = indices.bind specNavUnits := by
  have h := navEntries_eq_bind_aux indices []
  simpa [navEntries] using h

/-- Page with `display_in_nav` set, inside an index without it. -/
def cexNavPage : Page :=
  { metadata :=
      { id := str "p"
        title := str "P"
        display_in_nav := some 0
        weight := none
        excerpt := none
        date := none
        filepath := [str "d", str "p.md"]
        template := str "page.html" }
    html := [] }

/-- Index whose own `display_in_nav` is absent. -/
def cexNavIndex : Index :=
  { metadata :=
      { title := str "D"
        display_in_nav := none
        sort_by := .title
        template := str "index.html"
        filepath := [str "d", str "_index.md"] }
    html := []
    pages := [cexNavPage] }

/-- Counterexample to C2 as stated: `cexNavPage` has `display_in_nav`
set, yet the nav fragment of its site is empty — `build_navigation`
never visits the pages of an index whose own `display_in_nav` is
absent, so the page's (non-empty) rendered link appears zero times, not
exactly once. -/
theorem C2_navigation_counterexample :
    cexNavPage.metadata.display_in_nav = some 0 ∧
    cexNavPage ∈ cexNavIndex.pages ∧
    pageNavLink cexNavIndex cexNavPage ≠ [] ∧
    build_navigation [cexNavIndex] = [] :=
  ⟨rfl, by simp [cexNavIndex], by decide, by rfl⟩

/-- C2 (amended): the entries of the nav fragment are exactly one
`(position, link)` pair per index with `display_in_nav` set, plus one
pair per page whose `display_in_nav` is set *and whose parent index also
has `display_in_nav` set*; the fragment concatenates them sorted by
ascending position, with equal positions kept in discovery order (the
sort is stable: filtering any one key value preserves the pre-sort
order). -/
theorem C2_navigation_amended (indices : List Index) :
    navEntries indices = indices.bind specNavUnits ∧
    List.Perm (navSorted indices) (navEntries indices) ∧
    (navSorted indices).Pairwise (fun a b => a.1 ≤ b.1) ∧
    (∀ k, (navSorted indices).filter (fun a => a.1 == k) =
      (navEntries indices).filter (fun a => a.1 == k)) ∧
    build_navigation indices = List.join ((navSorted indices).map Prod.snd) := by
  refine ⟨navEntries_eq_bind indices, sortLe_perm _ _, ?_, ?_, rfl⟩
  · have h := sortLe_sorted (fun a b : Nat × Str => decide (a.1 ≤ b.1))
      (fun a b => by rcases Nat.le_total a.1 b.1 with h | h <;> simp [h])
      (fun a b c h1 h2 => by
        simp only [decide_eq_true_eq] at *
        omega)
      (navEntries indices)
    exact h.imp (by intro a b h; simpa using h)
  · intro k
    exact sortLe_filter_key (fun a : Nat × Str => a.1) k (navEntries indices)

/-- The frontmatter delimiter sequence. -/
def tripleDelim : Str := str "+++"

/-- One step of Rust `str::splitn(_, "+++")`: the part before the first
occurrence and the text after that occurrence. -/
def splitnPart (l : Str) : Option (Str × Str) :=
  (findSub tripleDelim l).map (fun i => (l.take i, l.drop (i + 3)))

/-- `parse_file` from `main.rs`: `splitn(3, "+++")` yields (ignored
part before the first delimiter, frontmatter, remainder); a missing
second or third part is a `MalformedContent` error naming the file, and
the markdown body is trimmed. -/
def parse_file (input : Str) (filepath : List Str) : Except Error (Str × Str) :=
  match splitnPart input with
  | none => .error (.MalformedContent filepath)
  | some (_, rest1) =>
    match splitnPart rest1 with
    | none => .error (.MalformedContent filepath)
    | some (fm, rest2) => .ok (fm, trimStr rest2)

/-- Specification-side predicate: the delimiter occurs at position `i`. -/
def occAt (l : Str) (i : Nat) : Prop := isPre tripleDelim (l.drop i) = true

instance occAtDecidable (l : Str) (i : Nat) : Decidable (occAt l i) := by
  unfold occAt
  infer_instance

theorem isPre_length (p l : Str) (h : isPre p l = true) : p.length ≤ l.length := by
  induction p generalizing l with
  | nil => simp
  | cons a xs ih =>
    cases l with
    | nil => simp [isPre] at h
    | cons b ys =>
      simp only [isPre, Bool.and_eq_true] at h
      have := ih ys h.2
      simp only [List.length_cons]
      omega

/-- Counterexample to C6 as stated: the body returned for
`"+++a+++ b"` is the *trimmed* `"b"`, not the raw text `" b"` after the
second delimiter occurrence. -/
theorem C6_parse_file_counterexample :
    parse_file (str "+++a+++ b") [str "f.md"] = .ok (str "a", str "b") ∧
    str "b" ≠ str " b" :=
  ⟨by rfl, by decide⟩

/-- C6 (amended): splitting succeeds exactly when `"+++"` occurs (in
the non-overlapping left-to-right sense) at least twice; with fewer
occurrences `parse_file` fails with `MalformedContent` naming the file;
on success the frontmatter is the text between the first and second
occurrence and the body is the *whitespace-trimmed* text after the
second occurrence. -/
theorem C6_parse_file_amended :
    (∀ (input : Str) (f : List Str),
      (¬ ∃ i j, occAt input i ∧ occAt input j ∧ i + 3 ≤ j) →
        parse_file input f = .error (.MalformedContent f)) ∧
    (∀ (input : Str) (f : List Str) (i j : Nat),
      occAt input i → (∀ k < i, ¬ occAt input k) →
      occAt input (i + 3 + j) → (∀ k < j, ¬ occAt input (i + 3 + k)) →
      parse_file input f =
        .ok ((input.drop (i + 3)).take j, trimStr (input.drop (i + 3 + j + 3)))) := by
  constructor
  · intro input f hno
    cases h1 : findSub tripleDelim input with
    | none => simp [parse_file, splitnPart, h1]
    | some i0 =>
      cases h2 : findSub tripleDelim (input.drop (i0 + 3)) with
      | none => simp [parse_file, splitnPart, h1, h2]
      | some j0 =>
        exfalso
        apply hno
        refine ⟨i0, i0 + 3 + j0, (findSub_some _ _ _ h1).1, ?_, by omega⟩
        have hocc := (findSub_some _ _ _ h2).1
        rw [drop_shift] at hocc
        exact hocc
  · intro input f i j hi himin hj hjmin
    have h1 : findSub tripleDelim input = some i := findSub_of_least _ _ i hi himin
    have h2 : findSub tripleDelim (input.drop (i + 3)) = some j := by
      refine findSub_of_least _ _ j ?_ ?_
      · rw [drop_shift]
        exact hj
      · intro k hk
        rw [drop_shift]
        exact hjmin k hk
    simp only [parse_file, splitnPart, h1, h2, Option.map_some']
    have h4 : i + 3 + (j + 3) = i + 3 + j + 3 := by omega
    rw [List.drop_drop, h4]

/-- Witness for C6's amended success case at `"+++a+++ b"`. -/
theorem C6_parse_file_amended_witness :
    parse_file (str "+++a+++ b") [str "f.md"] =
      .ok (((str "+++a+++ b").drop (0 + 3)).take 1,
        trimStr ((str "+++a+++ b").drop (0 + 3 + 1 + 3))) :=
  C6_parse_file_amended.2 (str "+++a+++ b") [str "f.md"] 0 1
    (by decide) (by decide) (by decide) (by decide)

/-- The fixed output file name. -/
def indexHtmlName : Str := str "index.html"

/-- Output directory of an index (`main.rs` lines 337–344):
`output_path` joined with the parent of the index's content-relative
filepath. -/
def indexOutDir (outRoot : List Str) (idx : Index) : List Str :=
  outRoot ++ idx.metadata.filepath.dropLast

/-- Output file of an index: `<dir>/index.html`. -/
def indexOutPath (outRoot : List Str) (idx : Index) : List Str :=
  indexOutDir outRoot idx ++ [indexHtmlName]

/-- Output directory of a page (`main.rs` lines 395–398):
`output_path`, the parent of the page's filepath, then the page `id`. -/
def pageOutDir (outRoot : List Str) (p : Page) : List Str :=
  outRoot ++ p.metadata.filepath.dropLast ++ [p.metadata.id]

/-- Output file of a page: `<dir>/index.html`. -/
def pageOutPath (outRoot : List Str) (p : Page) : List Str :=
  pageOutDir outRoot p ++ [indexHtmlName]

/-- All output file paths written by one export run. -/
def allOutPaths (outRoot : List Str) (indices : List Index) : List (List Str) :=
  indices.map (indexOutPath outRoot) ++
    (indices.bind (fun i => i.pages)).map (pageOutPath outRoot)

/-- Page at the content root whose `id` names a sibling directory. -/
def cexClashPage : Page :=
  { metadata :=
      { id := str "blog"
        title := str "Foo"
        display_in_nav := none
        weight := none
        excerpt := none
        date := none
        filepath := [str "foo.md"]
        template := str "page.html" }
    html := [] }

/-- Root index owning `cexClashPage`. -/
def cexClashRootIndex : Index :=
  { metadata :=
      { title := str "Root"
        display_in_nav := none
        sort_by := .title
        template := str "index.html"
        filepath := [str "_index.md"] }
    html := []
    pages := [cexClashPage] }

/-- Index of the `blog` subdirectory. -/
def cexClashBlogIndex : Index :=
  { metadata :=
      { title := str "Blog"
        display_in_nav := none
        sort_by := .title
        template := str "index.html"
        filepath := [str "blog", str "_index.md"] }
    html := []
    pages := [] }

/-- Counterexample to C7 as stated: page ids are unique among siblings
and index filepaths are distinct, yet the page `foo.md` (id `blog`) and
the index of directory `blog` write the same output file
`out/blog/index.html`. -/
theorem C7_disjoint_paths_counterexample :
    (∀ idx ∈ [cexClashRootIndex, cexClashBlogIndex],
      (idx.pages.map (fun p => p.metadata.id)).Nodup) ∧
    ([cexClashRootIndex, cexClashBlogIndex].map (fun i => i.metadata.filepath)).Nodup ∧
    pageOutPath [str "out"] cexClashPage =
      indexOutPath [str "out"] cexClashBlogIndex ∧
    ¬ (allOutPaths [str "out"] [cexClashRootIndex, cexClashBlogIndex]).Nodup := by
  refine ⟨by decide, by decide, by rfl, ?_⟩
  decide

theorem gOut_injective (outRoot : List Str) :
    Function.Injective (fun d : List Str => outRoot ++ d ++ [indexHtmlName]) := by
  intro d1 d2 h
  simp only [List.append_assoc] at h
  have h2 := List.append_cancel_left h
  have h3 : d1 ++ [indexHtmlName] = d2 ++ [indexHtmlName] := by
    simpa [List.append_assoc] using h2
  exact List.append_cancel_right h3

/-- C7 (amended): the export units write pairwise distinct output
files provided (a) distinct indices have distinct directories (which
follows from distinct filepaths all ending in the reserved index file
name), (b) distinct pages have distinct output directories
`parent ++ [id]` (which follows from id uniqueness among the pages of
one directory), and (c) — the condition the counterexample shows is
really needed — no page's output directory coincides with the directory
of some index. -/
theorem C7_disjoint_paths_amended (outRoot : List Str) (indices : List Index)
    (hidx : (indices.map (fun i => i.metadata.filepath.dropLast)).Nodup)
    (hpages : ((indices.bind (fun i => i.pages)).map
        (fun p => p.metadata.filepath.dropLast ++ [p.metadata.id])).Nodup)
    (hcross : ∀ p ∈ indices.bind (fun i => i.pages), ∀ idx ∈ indices,
        p.metadata.filepath.dropLast ++ [p.metadata.id] ≠
          idx.metadata.filepath.dropLast) :
    (allOutPaths outRoot indices).Nodup := by
  rw [allOutPaths, List.nodup_append]
  refine ⟨?_, ?_, ?_⟩
  · have hmap : indices.map (indexOutPath outRoot) =
        (indices.map (fun i => i.metadata.filepath.dropLast)).map
          (fun d => outRoot ++ d ++ [indexHtmlName]) := by
      simp [List.map_map, indexOutPath, indexOutDir, Function.comp]
    rw [hmap]
    exact hidx.map (gOut_injective outRoot)
  · have hmap : (indices.bind (fun i => i.pages)).map (pageOutPath outRoot) =
        ((indices.bind (fun i => i.pages)).map
          (fun p => p.metadata.filepath.dropLast ++ [p.metadata.id])).map
          (fun d => outRoot ++ d ++ [indexHtmlName]) := by
      simp [List.map_map, pageOutPath, pageOutDir, Function.comp, List.append_assoc]
    rw [hmap]
    exact hpages.map (gOut_injective outRoot)
  · intro a ha hb
    simp only [List.mem_map] at ha hb
    obtain ⟨idx, hidxmem, rfl⟩ := ha
    obtain ⟨p, hpmem, hpeq⟩ := hb
    have : p.metadata.filepath.dropLast ++ [p.metadata.id] =
        idx.metadata.filepath.dropLast := by
      apply gOut_injective outRoot
      show outRoot ++ (p.metadata.filepath.dropLast ++ [p.metadata.id]) ++ [indexHtmlName] =
        outRoot ++ idx.metadata.filepath.dropLast ++ [indexHtmlName]
      have hshape : outRoot ++ (p.metadata.filepath.dropLast ++ [p.metadata.id]) ++
          [indexHtmlName] = pageOutPath outRoot p := by
        simp [pageOutPath, pageOutDir, List.append_assoc]
      rw [hshape, hpeq]
      simp [indexOutPath, indexOutDir, List.append_assoc]
    exact hcross p hpmem idx hidxmem this

/-- Non-clashing page for the C7 witness. -/
def wOutPage : Page :=
  { metadata :=
      { id := str "post"
        title := str "Foo"
        display_in_nav := none
        weight := none
        excerpt := none
        date := none
        filepath := [str "foo.md"]
        template := str "page.html" }
    html := [] }

/-- Root index for the C7 witness. -/
def wOutRootIndex : Index :=
  { metadata :=
      { title := str "Root"
        display_in_nav := none
        sort_by := .title
        template := str "index.html"
        filepath := [str "_index.md"] }
    html := []
    pages := [wOutPage] }

/-- Second index for the C7 witness. -/
def wOutBlogIndex : Index :=
  { metadata :=
      { title := str "Blog"
        display_in_nav := none
        sort_by := .title
        template := str "index.html"
        filepath := [str "blog", str "_index.md"] }
    html := []
    pages := [] }

/-- Witness for C7's amended theorem on a two-index site. -/
theorem C7_disjoint_paths_amended_witness :
    (allOutPaths [str "out"] [wOutRootIndex, wOutBlogIndex]).Nodup :=
  C7_disjoint_paths_amended [str "out"] [wOutRootIndex, wOutBlogIndex]
    (by decide) (by decide) (by decide)

/-- A content directory as enumerated by `read_dir`: regular files
(name, contents) and subdirectories.  The loader handles files and
subdirectories independently, so keeping them in two lists loses no
behaviour. -/
inductive FsTree where
  | dir (files : List (Str × Str)) (subs : List (Str × FsTree))

/-- The files of a directory. -/
def FsTree.filesOf : FsTree → List (Str × Str)
  | .dir fs _ => fs

/-- The subdirectories of a directory. -/
def FsTree.subsOf : FsTree → List (Str × FsTree)
  | .dir _ sb => sb

mutual

/-- Size of a tree, used as the loader's termination measure. -/
def FsTree.size : FsTree → Nat
  | .dir _ subs => 1 + sizeSubs subs

/-- Total size of a subdirectory list. -/
def sizeSubs : List (Str × FsTree) → Nat
  | [] => 0
  | (_, t) :: rest => 1 + FsTree.size t + sizeSubs rest

end

/-- Membership test on names. -/
def memName (n : Str) : List Str → Bool
  | [] => false
  | m :: rest => decide (m = n) || memName n rest

/-- No duplicate names. -/
def namesNodupB : List Str → Bool
  | [] => true
  | n :: rest => !(memName n rest) && namesNodupB rest

mutual

/-- Well-formedness of a directory tree: entry names are unique within
every directory, as on a real filesystem. -/
def TreeWFb : FsTree → Bool
  | .dir files subs =>
    namesNodupB (files.map (fun f => f.1) ++ subs.map (fun s => s.1)) && subsWFb subs

/-- Well-formedness of a subdirectory list. -/
def subsWFb : List (Str × FsTree) → Bool
  | [] => true
  | (_, t) :: rest => TreeWFb t && subsWFb rest

end

/-- First subdirectory with the given name. -/
def lookupSub (subs : List (Str × FsTree)) (n : Str) : Option FsTree :=
  match subs with
  | [] => none
  | (m, t) :: rest => if m = n then some t else lookupSub rest n

/-- Resolve a relative directory path in a tree. -/
def lookupDir : List Str → FsTree → Option FsTree
  | [], t => some t
  | n :: p, .dir _ subs =>
    match lookupSub subs n with
    | none => none
    | some t => lookupDir p t

/-- External collaborators the spec declares out of scope: markdown
rendering, TOML deserialization of the two frontmatter schemas, and the
two date formatters. -/
structure ExtFns where
  render : Str → Str
  parsePageMeta : Str → Option PageMetadata
  parseIndexMeta : Str → Option IndexMetadata
  fIso : Int → Str
  fUtc : Int → Str

/-- `Page::parse_md`: split the file into frontmatter and markdown,
deserialize the frontmatter, stamp the content-relative `filepath`,
render the markdown. -/
def pageParseMd (E : ExtFns) (base relpath : List Str) (content : Str) :
    Except Error Page :=
  match parse_file content (base ++ relpath) with
  | .error e => .error e
  | .ok (fm, md) =>
    match E.parsePageMeta fm with
    | none => .error (.ParseMetadata relpath)
    | some m => .ok { metadata := { m with filepath := relpath }, html := E.render md }

/-- `Index::parse_md`: like `Page::parse_md` but for the index schema;
does not read any pages. -/
def indexParseMd (E : ExtFns) (base relpath : List Str) (content : Str) :
    Except Error Index :=
  match parse_file content (base ++ relpath) with
  | .error e => .error e
  | .ok (fm, md) =>
    match E.parseIndexMeta fm with
    | none => .error (.ParseMetadata relpath)
    | some m =>
      .ok { metadata := { m with filepath := relpath }, html := E.render md, pages := [] }

/-- `file.extension() == Some("md")`: the name ends in `.md` with a
non-empty stem. -/
def hasMdExt (name : Str) : Bool := isSuf (str ".md") name && decide (3 < name.length)

/-- The `index = Some(file)` assignment folded over the directory
entries: the last `_index.md` wins. -/
def findIndexFile (files : List (Str × Str)) : Option Str :=
  files.foldl (fun acc f => if f.1 = str "_index.md" then some f.2 else acc) none

/-- The directory's page sources: every `.md` file except `_index.md`,
in entry order. -/
def pageFiles (files : List (Str × Str)) : List (Str × Str) :=
  files.filter (fun f => !(decide (f.1 = str "_index.md")) && hasMdExt f.1)

/-- Parse all page files of one directory; the page tasks are joined in
spawn order and the first error (in that order) aborts. -/
def parsePages (E : ExtFns) (base rp : List Str) :
    List (Str × Str) → Except Error (List Page)
  | [] => .ok []
  | (n, c) :: rest =>
    match pageParseMd E base (rp ++ [n]) c with
    | .error e => .error e
    | .ok p =>
      match parsePages E base rp rest with
      | .error e => .error e
      | .ok ps => .ok (p :: ps)

/-- Weight of a work stack: total size of its trees. -/
def stackW (st : List (List Str × FsTree)) : Nat :=
  (st.map (fun e => e.2.size)).sum

theorem subs_sizes_le (subs : List (Str × FsTree)) :
    ((subs.map (fun s => s.2.size)).sum) ≤ sizeSubs subs := by
  induction subs with
  | nil => simp [sizeSubs]
  | cons s rest ih =>
    cases s with
    | mk n t =>
      simp only [List.map_cons, List.sum_cons, sizeSubs]
      omega

theorem stackW_push (rp : List Str) (t : FsTree) (rest : List (List Str × FsTree)) :
    stackW (((t.subsOf.map (fun s => (rp ++ [s.1], s.2))).reverse) ++ rest) <
      stackW ((rp, t) :: rest) := by
  have h1 : stackW (((t.subsOf.map (fun s => (rp ++ [s.1], s.2))).reverse) ++ rest) =
      ((t.subsOf.map (fun s => s.2.size)).sum) + stackW rest := by
    simp only [stackW, List.map_append, List.sum_append, List.map_reverse,
      List.sum_reverse, List.map_map]
    congr 1
  have h2 : stackW ((rp, t) :: rest) = t.size + stackW rest := by
    simp [stackW]
  have h3 : ((t.subsOf.map (fun s => s.2.size)).sum) < t.size := by
    cases t with
    | dir files subs =>
      have h := subs_sizes_le subs
      simp only [FsTree.subsOf, FsTree.size]
      omega
  omega

/-- The work-stack loop of `load_and_parse_content`: pop a directory,
push its subdirectories (in LIFO order), parse its pages, and — only
when `_index.md` was found — parse the index, attach the sorted pages
and append it to the accumulator. -/
def loadLoop (E : ExtFns) (base : List Str) :
    List (List Str × FsTree) → List Index → Except Error (List Index)
  | [], acc => .ok acc
  | (rp, t) :: rest, acc =>
    match parsePages E base rp (pageFiles t.filesOf) with
    | .error e => .error e
    | .ok pages =>
      match findIndexFile t.filesOf with
      | none =>
        loadLoop E base ((t.subsOf.map (fun s => (rp ++ [s.1], s.2))).reverse ++ rest) acc
      | some c =>
        match indexParseMd E base (rp ++ [str "_index.md"]) c with
        | .error e => .error e
        | .ok idx =>
          loadLoop E base ((t.subsOf.map (fun s => (rp ++ [s.1], s.2))).reverse ++ rest)
            (acc ++ [{ idx with pages := sortPages idx.metadata.sort_by pages }])
termination_by st _ => stackW st
decreasing_by
  · exact stackW_push rp t rest
  · exact stackW_push rp t rest

/-- `load_and_parse_content(content_dir)`: run the loop from the root. -/
def load_and_parse_content (E : ExtFns) (base : List Str) (root : FsTree) :
    Except Error (List Index) :=
  loadLoop E base [([], root)] []

theorem memName_of_mem (n : Str) (names : List Str) (h : n ∈ names) :
    memName n names = true := by
  induction names with
  | nil => cases h
  | cons m rest ih =>
    rcases List.mem_cons.mp h with rfl | h
    · simp [memName]
    · simp [memName, ih h]

theorem namesNodupB_append_right (a b : List Str)
    (h : namesNodupB (a ++ b) = true) : namesNodupB b = true := by
  induction a with
  | nil => exact h
  | cons n a ih =>
    simp only [List.cons_append, namesNodupB, Bool.and_eq_true] at h
    exact ih h.2

theorem subsWFb_mem (subs : List (Str × FsTree)) (n : Str) (t : FsTree)
    (hwf : subsWFb subs = true) (hmem : (n, t) ∈ subs) : TreeWFb t = true := by
  induction subs with
  | nil => cases hmem
  | cons s rest ih =>
    cases s with
    | mk m t' =>
      simp only [subsWFb, Bool.and_eq_true] at hwf
      rcases List.mem_cons.mp hmem with heq | hmem
      · cases heq
        exact hwf.1
      · exact ih hwf.2 hmem

theorem lookupSub_of_mem (subs : List (Str × FsTree)) (n : Str) (t : FsTree)
    (hmem : (n, t) ∈ subs) (hnd : namesNodupB (subs.map (fun s => s.1)) = true) :
    lookupSub subs n = some t := by
  induction subs with
  | nil => cases hmem
  | cons s rest ih =>
    cases s with
    | mk m t' =>
      simp only [List.map_cons, namesNodupB, Bool.and_eq_true, Bool.not_eq_true'] at hnd
      rcases List.mem_cons.mp hmem with heq | hmem
      · cases heq
        simp [lookupSub]
      · have hne : ¬ m = n := by
          intro hmn
          subst hmn
          have : m ∈ rest.map (fun s => s.1) :=
            List.mem_map.mpr ⟨(m, t), hmem, rfl⟩
          rw [memName_of_mem m _ this] at hnd
          exact Bool.noConfusion hnd.1
        simp only [lookupSub, hne, if_false]
        exact ih hmem hnd.2

theorem lookupSub_mem (subs : List (Str × FsTree)) (n : Str) (t : FsTree)
    (h : lookupSub subs n = some t) : (n, t) ∈ subs := by
  induction subs with
  | nil => simp [lookupSub] at h
  | cons s rest ih =>
    cases s with
    | mk m t' =>
      simp only [lookupSub] at h
      by_cases hm : m = n
      · subst hm
        simp at h
        subst h
        exact List.mem_cons_self _ _
      · simp only [hm, if_false] at h
        exact List.mem_cons_of_mem _ (ih h)

theorem treeWFb_lookupDir (rp : List Str) (root t : FsTree)
    (hwf : TreeWFb root = true) (h : lookupDir rp root = some t) :
    TreeWFb t = true := by
  induction rp generalizing root with
  | nil =>
    simp only [lookupDir, Option.some.injEq] at h
    subst h
    exact hwf
  | cons n p ih =>
    cases root with
    | dir files subs =>
      simp only [lookupDir] at h
      cases hs : lookupSub subs n with
      | none => rw [hs] at h; cases h
      | some t0 =>
        rw [hs] at h
        have hmem := lookupSub_mem subs n t0 hs
        simp only [TreeWFb, Bool.and_eq_true] at hwf
        exact ih t0 (subsWFb_mem subs n t0 hwf.2 hmem) h

theorem lookupDir_append_sub (rp : List Str) (root : FsTree)
    (files : List (Str × Str)) (subs : List (Str × FsTree)) (n : Str) (t : FsTree)
    (h1 : lookupDir rp root = some (.dir files subs))
    (h2 : lookupSub subs n = some t) :
    lookupDir (rp ++ [n]) root = some t := by
  induction rp generalizing root with
  | nil =>
    simp only [lookupDir, Option.some.injEq] at h1
    subst h1
    simp [lookupDir, h2]
  | cons m p ih =>
    cases root with
    | dir f0 s0 =>
      simp only [lookupDir] at h1 ⊢
      cases hs : lookupSub s0 m with
      | none => rw [hs] at h1; cases h1
      | some t0 =>
        rw [hs] at h1
        exact ih t0 h1

theorem pageParseMd_filepath (E : ExtFns) (base relpath : List Str) (content : Str)
    (p : Page) (h : pageParseMd E base relpath content = .ok p) :
    p.metadata.filepath = relpath := by
  unfold pageParseMd at h
  cases hpf : parse_file content (base ++ relpath) with
  | error e => rw [hpf] at h; cases h
  | ok fmmd =>
    rw [hpf] at h
    cases hm : E.parsePageMeta fmmd.1 with
    | none => simp [hm] at h
    | some m =>
      simp only [hm] at h
      cases h
      rfl

theorem indexParseMd_filepath (E : ExtFns) (base relpath : List Str) (content : Str)
    (idx : Index) (h : indexParseMd E base relpath content = .ok idx) :
    idx.metadata.filepath = relpath := by
  unfold indexParseMd at h
  cases hpf : parse_file content (base ++ relpath) with
  | error e => rw [hpf] at h; cases h
  | ok fmmd =>
    rw [hpf] at h
    cases hm : E.parseIndexMeta fmmd.1 with
    | none => simp [hm] at h
    | some m =>
      simp only [hm] at h
      cases h
      rfl

theorem parsePages_filepath (E : ExtFns) (base rp : List Str) :
    ∀ (fs : List (Str × Str)) (ps : List Page),
      parsePages E base rp fs = .ok ps →
      ∀ p ∈ ps, ∃ n, p.metadata.filepath = rp ++ [n] := by
  intro fs
  induction fs with
  | nil =>
    intro ps h p hp
    simp only [parsePages] at h
    cases h
    cases hp
  | cons f rest ih =>
    intro ps h p hp
    cases f with
    | mk n c =>
      simp only [parsePages] at h
      cases hpm : pageParseMd E base (rp ++ [n]) c with
      | error e => rw [hpm] at h; cases h
      | ok p0 =>
        rw [hpm] at h
        cases hrest : parsePages E base rp rest with
        | error e => rw [hrest] at h; cases h
        | ok ps0 =>
          rw [hrest] at h
          cases h
          rcases List.mem_cons.mp hp with rfl | hp
          · exact ⟨n, pageParseMd_filepath E base (rp ++ [n]) c p hpm⟩
          · exact ih ps0 hrest p hp

theorem findIndexFile_mem (files : List (Str × Str)) (c : Str)
    (h : findIndexFile files = some c) : (str "_index.md", c) ∈ files := by
  have haux : ∀ (fs : List (Str × Str)) (acc : Option Str),
      fs.foldl (fun acc f => if f.1 = str "_index.md" then some f.2 else acc) acc = some c →
      (str "_index.md", c) ∈ fs ∨ acc = some c := by
    intro fs
    induction fs with
    | nil => intro acc h; exact Or.inr h
    | cons f rest ih =>
      intro acc h
      cases f with
      | mk n v =>
        simp only [List.foldl_cons] at h
        by_cases hn : n = str "_index.md"
        · subst hn
          rcases ih (some v) (by simpa using h) with hmem | hacc
          · exact Or.inl (List.mem_cons_of_mem _ hmem)
          · simp only [Option.some.injEq] at hacc
            subst hacc
            exact Or.inl (List.mem_cons_self _ _)
        · rcases ih acc (by simpa [hn] using h) with hmem | hacc
          · exact Or.inl (List.mem_cons_of_mem _ hmem)
          · exact Or.inr hacc
  rcases haux files none h with hmem | hacc
  · exact hmem
  · cases hacc

theorem mem_sortPages (o : SortOrder) (ps : List Page) (p : Page)
    (h : p ∈ sortPages o ps) : p ∈ ps :=
  (sortLe_perm (pageLeB o) ps).mem_iff.mp h

/-- The C8 well-formedness of one produced index: it stems from a
directory (resolvable in the input tree) that really contains the
`_index.md` marker, and all its pages come from that same directory. -/
def GoodIndex (root : FsTree) (idx : Index) : Prop :=
  ∃ dp files subs c,
    idx.metadata.filepath = dp ++ [str "_index.md"] ∧
    lookupDir dp root = some (.dir files subs) ∧
    (str "_index.md", c) ∈ files ∧
    ∀ p ∈ idx.pages, ∃ n, p.metadata.filepath = dp ++ [n]

theorem loadLoop_invariant (E : ExtFns) (base : List Str) (root : FsTree)
    (hwf : TreeWFb root = true) :
    ∀ (N : Nat) (stack : List (List Str × FsTree)) (acc : List Index),
      stackW stack ≤ N →
      (∀ e ∈ stack, lookupDir e.1 root = some e.2) →
      (∀ idx ∈ acc, GoodIndex root idx) →
      ∀ out, loadLoop E base stack acc = .ok out →
      ∀ idx ∈ out, GoodIndex root idx := by
  intro N
  induction N with
  | zero =>
    intro stack acc hW hstack hacc out hout
    cases stack with
    | nil =>
      simp only [loadLoop] at hout
      cases hout
      exact hacc
    | cons e rest =>
      exfalso
      cases e with
      | mk rp t =>
        have h1 : 1 ≤ t.size := by
          cases t with
          | dir f s => simp [FsTree.size]
        have h2 : t.size ≤ stackW ((rp, t) :: rest) := by
          simp [stackW]
        omega
  | succ N ih =>
    intro stack acc hW hstack hacc out hout
    cases stack with
    | nil =>
      simp only [loadLoop] at hout
      cases hout
      exact hacc
    | cons e rest =>
      cases e with
      | mk rp t =>
        rw [loadLoop] at hout
        cases hpp : parsePages E base rp (pageFiles t.filesOf) with
        | error err => rw [hpp] at hout; cases hout
        | ok pages =>
          rw [hpp] at hout
          dsimp only at hout
          have hlook : lookupDir rp root = some t := hstack (rp, t) (List.mem_cons_self _ _)
          have htwf : TreeWFb t = true := treeWFb_lookupDir rp root t hwf hlook
          have hstack' : ∀ e ∈ ((t.subsOf.map (fun s => (rp ++ [s.1], s.2))).reverse ++ rest),
              lookupDir e.1 root = some e.2 := by
            intro e he
            rcases List.mem_append.mp he with he | he
            · rw [List.mem_reverse] at he
              rcases List.mem_map.mp he with ⟨s, hs, rfl⟩
              cases t with
              | dir files subs =>
                simp only [FsTree.subsOf] at hs
                simp only [TreeWFb, Bool.and_eq_true] at htwf
                have hnd : namesNodupB (subs.map (fun s => s.1)) = true :=
                  namesNodupB_append_right _ _ htwf.1
                cases s with
                | mk n t' =>
                  exact lookupDir_append_sub rp root files subs n t' hlook
                    (lookupSub_of_mem subs n t' hs hnd)
            · exact hstack e (List.mem_cons_of_mem _ he)
          have hW' : stackW ((t.subsOf.map (fun s => (rp ++ [s.1], s.2))).reverse ++ rest) ≤ N := by
            have := stackW_push rp t rest
            omega
          cases hfi : findIndexFile t.filesOf with
          | none =>
            rw [hfi] at hout
            dsimp only at hout
            exact ih _ _ hW' hstack' hacc out hout
          | some c =>
            rw [hfi] at hout
            dsimp only at hout
            cases hip : indexParseMd E base (rp ++ [str "_index.md"]) c with
            | error err => rw [hip] at hout; cases hout
            | ok idx0 =>
              rw [hip] at hout
              dsimp only at hout
              have hgood : GoodIndex root
                  { idx0 with pages := sortPages idx0.metadata.sort_by pages } := by
                cases t with
                | dir files subs =>
                  refine ⟨rp, files, subs, c, ?_, hlook, ?_, ?_⟩
                  · simpa using indexParseMd_filepath E base _ c idx0 hip
                  · exact findIndexFile_mem files c (by simpa [FsTree.filesOf] using hfi)
                  · intro p hp
                    have hp' := mem_sortPages _ _ p (by simpa using hp)
                    exact parsePages_filepath E base rp _ pages hpp p hp'
              refine ih _ _ hW' hstack' ?_ out hout
              intro idx hidx
              rcases List.mem_append.mp hidx with hidx | hidx
              · exact hacc idx hidx
              · have := List.mem_singleton.mp hidx
                subst this
                exact hgood

/-- C8: when the loader succeeds on a well-formed tree, every returned
Index comes from a directory that contains the `_index.md` marker file,
and every page of every returned Index lies in that same directory.
Consequently a directory holding Markdown pages but no `_index.md`
contributes no Index, and its parsed pages appear in no returned
Index. -/
theorem C8_orphan_pages (E : ExtFns) (base : List Str) (root : FsTree)
    (out : List Index) (hwf : TreeWFb root = true)
    (hok : load_and_parse_content E base root = .ok out) :
    ∀ idx ∈ out, GoodIndex root idx := by
  refine loadLoop_invariant E base root hwf (stackW [([], root)])
    [([], root)] [] (le_refl _) ?_ ?_ out hok
  · intro e he
    have := List.mem_singleton.mp he
    subst this
    rfl
  · intro idx hidx
    cases hidx

/-- Collaborators for the C8 witness: identity renderer and constant
TOML decoders. -/
def wExt : ExtFns :=
  { render := fun s => s
    parsePageMeta := fun _ => some
      { id := str "p", title := str "P", display_in_nav := none, weight := none,
        excerpt := none, date := none, filepath := [], template := str "page.html" }
    parseIndexMeta := fun _ => some
      { title := str "I", display_in_nav := none, sort_by := .title,
        template := str "index.html", filepath := [] }
    fIso := fun _ => []
    fUtc := fun _ => [] }

/-- A directory holding a Markdown page but no `_index.md`. -/
def wOrphanTree : FsTree := .dir [(str "a.md", str "+++t+++b")] []

/-- Content root: `_index.md` at the top, plus the orphan directory. -/
def wTree : FsTree :=
  .dir [(str "_index.md", str "+++t+++b")] [(str "orphan", wOrphanTree)]

/-- The single index the loader returns on `wTree`: the orphan
directory's page is discarded. -/
def wLoadedIndex : Index :=
  { metadata :=
      { title := str "I"
        display_in_nav := none
        sort_by := .title
        template := str "index.html"
        filepath := [str "_index.md"] }
    html := str "b"
    pages := [] }

theorem wTree_load :
    load_and_parse_content wExt [str "content"] wTree = .ok [wLoadedIndex] := by
  rw [load_and_parse_content]
  rw [loadLoop]
  show loadLoop wExt [str "content"] [([str "orphan"], wOrphanTree)] [wLoadedIndex] =
    Except.ok [wLoadedIndex]
  rw [loadLoop]
  show loadLoop wExt [str "content"] [] [wLoadedIndex] = Except.ok [wLoadedIndex]
  rw [loadLoop]

/-- Witness for C8: on a tree with an orphan directory, the loader
returns exactly the root index, which satisfies the marker/pages
property. -/
theorem C8_orphan_pages_witness : GoodIndex wTree wLoadedIndex :=
  C8_orphan_pages wExt [str "content"] wTree [wLoadedIndex] (by rfl) wTree_load
    wLoadedIndex (List.mem_singleton.mpr rfl)

/-- Filesystem effects performed by the exporter and the asset
mirror. -/
inductive FsEvent where
  | createDirAll (p : List Str)
  | readTemplate (p : Str)
  | writeFile (p : List Str) (content : Str)
  | copyFile (src dst : List Str)
deriving DecidableEq, Repr

/-- The program configuration (`config.rs`), with the two `SiteInfo`
strings inlined. -/
structure SiteConfig where
  content_path : List Str
  output_path : List Str
  site_title : Str
  site_description : Str

/-- `config.content_path.join("templates")`. -/
def templatesDirOf (cfg : SiteConfig) : List Str := cfg.content_path ++ [str "templates"]

/-- One spawned page-export task (`main.rs` lines 373–408): extend the
cloned context, read the page's template, expand it, create the output
directory and write the file.  `none` records that the shortcode
expansion would not terminate. -/
def exportPage (E : ExtFns) (tfs : TemplateFs) (cfg : SiteConfig) (ctx : Context)
    (fuel : Nat) (page : Page) : Option (Except Error (List FsEvent)) :=
  let ctx := ctxInsert ctx (str "content") page.html
  let ctx := ctxInsert ctx (str "title") page.metadata.title
  let ctx := match page.metadata.excerpt with
    | some ex => ctxInsert ctx (str "excerpt") ex
    | none => ctx
  let ctx := match page.metadata.date with
    | some d =>
      ctxInsert (ctxInsert ctx (str "date_iso8601") (E.fIso d)) (str "date") (E.fUtc d)
    | none => ctx
  match tfs page.metadata.template with
  | none => some (.error (.ReadInput (templatesDirOf cfg ++ [page.metadata.template])))
  | some ttext =>
    match templateRun tfs ctx ttext fuel with
    | none => none
    | some (.error e) => some (.error e)
    | some (.ok html) =>
      some (.ok [.readTemplate page.metadata.template,
        .createDirAll (pageOutDir cfg.output_path page),
        .writeFile (pageOutPath cfg.output_path page) html])

/-- All page tasks of one index, joined in spawn order; the first error
in that order aborts. -/
def exportPages (E : ExtFns) (tfs : TemplateFs) (cfg : SiteConfig) (ctx : Context)
    (fuel : Nat) : List Page → Option (Except Error (List FsEvent))
  | [] => some (.ok [])
  | p :: rest =>
    match exportPage E tfs cfg ctx fuel p with
    | none => none
    | some (.error e) => some (.error e)
    | some (.ok evs) =>
      match exportPages E tfs cfg ctx fuel rest with
      | none => none
      | some (.error e) => some (.error e)
      | some (.ok evs2) => some (.ok (evs ++ evs2))

/-- `export_indices_to_html` (`main.rs` lines 328–416): for each index,
create its output directory, set `title`/`content` in the (retained)
context, read and expand its template, write `index.html`, then export
its pages. -/
def exportIndices (E : ExtFns) (tfs : TemplateFs) (cfg : SiteConfig) :
    Context → List Index → Nat → Option (Except Error (List FsEvent))
  | _, [], _ => some (.ok [])
  | ctx, idx :: rest, fuel =>
    let ctx := ctxInsert ctx (str "title") idx.metadata.title
    let ctx := ctxInsert ctx (str "content") idx.html
    match tfs idx.metadata.template with
    | none => some (.error (.ReadInput (templatesDirOf cfg ++ [idx.metadata.template])))
    | some ttext =>
      match templateRun tfs ctx ttext fuel with
      | none => none
      | some (.error e) => some (.error e)
      | some (.ok html) =>
        match exportPages E tfs cfg ctx fuel idx.pages with
        | none => none
        | some (.error e) => some (.error e)
        | some (.ok pevs) =>
          match exportIndices E tfs cfg ctx rest fuel with
          | none => none
          | some (.error e) => some (.error e)
          | some (.ok revs) =>
            some (.ok (([.createDirAll (indexOutDir cfg.output_path idx),
              .readTemplate idx.metadata.template,
              .writeFile (indexOutPath cfg.output_path idx) html] ++ pevs) ++ revs))

/-- The template-read trace of an event list. -/
def readsOf (evs : List FsEvent) : List Str :=
  evs.filterMap (fun e =>
    match e with
    | .readTemplate p => some p
    | _ => none)

theorem readsOf_append (a b : List FsEvent) :
    readsOf (a ++ b) = readsOf a ++ readsOf b := by
  simp [readsOf, List.filterMap_append]

theorem exportPage_reads (E : ExtFns) (tfs : TemplateFs) (cfg : SiteConfig)
    (ctx : Context) (fuel : Nat) (p : Page) (evs : List FsEvent)
    (h : exportPage E tfs cfg ctx fuel p = some (.ok evs)) :
    readsOf evs = [p.metadata.template] := by
  simp only [exportPage] at h
  cases htf : tfs p.metadata.template with
  | none => rw [htf] at h; cases h
  | some ttext =>
    rw [htf] at h
    dsimp only at h
    cases htr : templateRun tfs
        (match p.metadata.date with
          | some d =>
            ctxInsert (ctxInsert
              (match p.metadata.excerpt with
                | some ex =>
                  ctxInsert (ctxInsert (ctxInsert ctx (str "content") p.html)
                    (str "title") p.metadata.title) (str "excerpt") ex
                | none =>
                  ctxInsert (ctxInsert ctx (str "content") p.html)
                    (str "title") p.metadata.title)
              (str "date_iso8601") (E.fIso d)) (str "date") (E.fUtc d)
          | none =>
            match p.metadata.excerpt with
            | some ex =>
              ctxInsert (ctxInsert (ctxInsert ctx (str "content") p.html)
                (str "title") p.metadata.title) (str "excerpt") ex
            | none =>
              ctxInsert (ctxInsert ctx (str "content") p.html)
                (str "title") p.metadata.title)
        ttext fuel with
    | none => rw [htr] at h; cases h
    | some r =>
      rw [htr] at h
      cases r with
      | error e => cases h
      | ok html =>
        dsimp only at h
        have hv : evs = [.readTemplate p.metadata.template,
            .createDirAll (pageOutDir cfg.output_path p),
            .writeFile (pageOutPath cfg.output_path p) html] := by
          cases h
          rfl
        subst hv
        rfl

theorem exportPages_reads (E : ExtFns) (tfs : TemplateFs) (cfg : SiteConfig)
    (ctx : Context) (fuel : Nat) :
    ∀ (ps : List Page) (evs : List FsEvent),
      exportPages E tfs cfg ctx fuel ps = some (.ok evs) →
      readsOf evs = ps.map (fun p => p.metadata.template) := by
  intro ps
  induction ps with
  | nil =>
    intro evs h
    simp only [exportPages] at h
    cases h
    rfl
  | cons p rest ih =>
    intro evs h
    simp only [exportPages] at h
    split at h
    · cases h
    · cases h
    · rename_i evs1 heq1
      split at h
      · cases h
      · cases h
      · rename_i evs2 heq2
        cases h
        rw [readsOf_append, exportPage_reads E tfs cfg ctx fuel p evs1 heq1, ih _ heq2]
        rfl

/-- C1 (amended): there is no template cache and no preload phase —
during export each unit (index or page) performs its own read of its
template file, so the read trace of a successful export contains, in
unit order, exactly one read per unit; a template path referenced by k
units is read k times, during the export phase. -/
theorem C1_template_reads_amended (E : ExtFns) (tfs : TemplateFs) (cfg : SiteConfig) :
    ∀ (indices : List Index) (ctx : Context) (fuel : Nat) (evs : List FsEvent),
      exportIndices E tfs cfg ctx indices fuel = some (.ok evs) →
      readsOf evs = indices.bind
        (fun i => i.metadata.template :: i.pages.map (fun p => p.metadata.template)) := by
  intro indices
  induction indices with
  | nil =>
    intro ctx fuel evs h
    simp only [exportIndices] at h
    cases h
    rfl
  | cons idx rest ih =>
    intro ctx fuel evs h
    simp only [exportIndices] at h
    split at h
    · cases h
    · split at h
      · cases h
      · cases h
      · split at h
        · cases h
        · cases h
        · rename_i pevs heqp
          split at h
          · cases h
          · cases h
          · rename_i revs heqr
            cases h
            rw [readsOf_append, readsOf_append]
            rw [exportPages_reads E tfs cfg _ fuel idx.pages pevs heqp]
            rw [ih _ fuel revs heqr]
            rfl

/-- Collaborators for the C1 counterexample (none of them are
exercised: the templates hold no shortcodes and pages carry no date). -/
def cexTplExt : ExtFns :=
  { render := fun s => s
    parsePageMeta := fun _ => none
    parseIndexMeta := fun _ => none
    fIso := fun _ => []
    fUtc := fun _ => [] }

/-- A page using the default `page.html` template. -/
def cexTplPage (n : String) : Page :=
  { metadata :=
      { id := str n
        title := str n
        display_in_nav := none
        weight := none
        excerpt := none
        date := none
        filepath := [str (n ++ ".md")]
        template := str "page.html" }
    html := str n }

/-- An index with two pages that share the `page.html` template. -/
def cexTplIndex : Index :=
  { metadata :=
      { title := str "Root"
        display_in_nav := none
        sort_by := .title
        template := str "index.html"
        filepath := [str "_index.md"] }
    html := []
    pages := [cexTplPage "a", cexTplPage "b"] }

/-- Configuration for the C1 counterexample. -/
def cexTplCfg : SiteConfig :=
  { content_path := [str "c"], output_path := [str "o"],
    site_title := [], site_description := [] }

/-- The event trace of the successful export of `cexTplIndex`. -/
def cexTplEvents : List FsEvent :=
  [.createDirAll [str "o"],
   .readTemplate (str "index.html"),
   .writeFile [str "o", str "index.html"] (str "T"),
   .readTemplate (str "page.html"),
   .createDirAll [str "o", str "a"],
   .writeFile [str "o", str "a", str "index.html"] (str "T"),
   .readTemplate (str "page.html"),
   .createDirAll [str "o", str "b"],
   .writeFile [str "o", str "b", str "index.html"] (str "T")]

/-- Counterexample to C1 as stated: in one successful build two pages
reference the same template path `page.html`, and the export reads that
file twice — during the export phase, not from any pre-populated
cache — so no template path is read "exactly once ... before Phase 3". -/
theorem C1_template_cache_counterexample :
    (cexTplPage "a").metadata.template = (cexTplPage "b").metadata.template ∧
    exportIndices cexTplExt (fun _ => some (str "T")) cexTplCfg [] [cexTplIndex] 1 =
      some (.ok cexTplEvents) ∧
    (readsOf cexTplEvents).count (str "page.html") = 2 :=
  ⟨rfl, by rfl, by rfl⟩

/-- Witness for C1's amended theorem at the two-page site. -/
theorem C1_template_reads_amended_witness :
    readsOf cexTplEvents = [cexTplIndex].bind
      (fun i => i.metadata.template :: i.pages.map (fun p => p.metadata.template)) :=
  C1_template_reads_amended cexTplExt (fun _ => some (str "T")) cexTplCfg
    [cexTplIndex] [] 1 cexTplEvents (by rfl)

/-- One article snippet of `build_article_list` (`main.rs` lines
467–483); the Rust format string ends in a literal backslash-n. -/
def articleSnippet (E : ExtFns) (p : Page) (d : Int) (ex : Str) : Str :=
  str "<hgroup>\n<h3><a href=\"" ++
    pathStr (p.metadata.filepath.dropLast ++ [p.metadata.id]) ++
    str "/\">" ++ p.metadata.title ++
    str "</a></h3>\n<p><small><time datetime=\"" ++ E.fIso d ++
    str "\">" ++ E.fUtc d ++
    str "</time></small></p>\n</hgroup><p>" ++ ex ++ str "</p>\\n"

/-- `build_article_list`: one snippet for every page carrying both a
date and an excerpt, in page order. -/
def build_article_list (E : ExtFns) (indices : List Index) : Str :=
  List.join ((indices.bind (fun i => i.pages)).filterMap (fun p =>
    match p.metadata.date, p.metadata.excerpt with
    | some d, some ex => some (articleSnippet E p d ex)
    | _, _ => none))

/-- Weight of a mirror work stack. -/
def stackW2 (st : List ((List Str × FsTree) × List Str)) : Nat :=
  (st.map (fun e => e.1.2.size)).sum

theorem stackW2_push (fp : List Str) (t : FsTree) (tp : List Str)
    (rest : List ((List Str × FsTree) × List Str)) :
    stackW2 (((t.subsOf.map (fun s => ((fp ++ [s.1], s.2), tp ++ [s.1]))).reverse) ++ rest) <
      stackW2 (((fp, t), tp) :: rest) := by
  have h1 : stackW2 (((t.subsOf.map
        (fun s => ((fp ++ [s.1], s.2), tp ++ [s.1]))).reverse) ++ rest) =
      ((t.subsOf.map (fun s => s.2.size)).sum) + stackW2 rest := by
    simp only [stackW2, List.map_append, List.sum_append, List.map_reverse,
      List.sum_reverse, List.map_map]
    congr 1
  have h2 : stackW2 (((fp, t), tp) :: rest) = t.size + stackW2 rest := by
    simp [stackW2]
  have h3 : ((t.subsOf.map (fun s => s.2.size)).sum) < t.size := by
    cases t with
    | dir files subs =>
      have h := subs_sizes_le subs
      simp only [FsTree.subsOf, FsTree.size]
      omega
  omega

/-- The work-stack loop of `mirror_assets` (`main.rs` lines 506–534):
pop a (source, destination) pair, copy its files, create and push its
subdirectories. -/
def mirrorLoop : List ((List Str × FsTree) × List Str) → List FsEvent
  | [] => []
  | ((fp, t), tp) :: rest =>
    (t.filesOf.map (fun f => FsEvent.copyFile (fp ++ [f.1]) (tp ++ [f.1]))) ++
    (t.subsOf.map (fun s => FsEvent.createDirAll (tp ++ [s.1]))) ++
    mirrorLoop ((t.subsOf.map (fun s => ((fp ++ [s.1], s.2), tp ++ [s.1]))).reverse ++ rest)
termination_by st => stackW2 st
decreasing_by
  exact stackW2_push fp t tp rest

/-- `mirror_assets(from, to)`: create the output root first, then read
the source directory — an absent source is a `ReadDirectory` error
naming it (after the root was created), otherwise mirror the tree. -/
def mirror_assets (srcDir dstDir : List Str) (root : Option FsTree) :
    List FsEvent × Except Error Unit :=
  match root with
  | none => ([.createDirAll dstDir], .error (.ReadDirectory srcDir))
  | some t => (.createDirAll dstDir :: mirrorLoop [((srcDir, t), dstDir)], .ok ())

/-- The shared context built by `Website::build` (`main.rs` lines
229–236): `nav`, `articles`, `site_title`, `site_description`. -/
def buildCtx (E : ExtFns) (cfg : SiteConfig) (indices : List Index) : Context :=
  ctxInsert (ctxInsert (ctxInsert (ctxInsert []
    (str "nav") (build_navigation indices))
    (str "articles") (build_article_list E indices))
    (str "site_title") cfg.site_title)
    (str "site_description") cfg.site_description

/-- `Website::build`: the asset mirror runs alongside the content
pipeline; load, build the context, export, then join the mirror task,
whose error surfaces only if the pipeline itself succeeded. -/
def websiteBuild (E : ExtFns) (cfg : SiteConfig) (assets : Option FsTree)
    (content : FsTree) (tfs : TemplateFs) (fuel : Nat) :
    Option (Except Error (List FsEvent)) :=
  let mirrorRes := mirror_assets (cfg.content_path ++ [str "assets"]) cfg.output_path assets
  match load_and_parse_content E (cfg.content_path ++ [str "content"]) content with
  | .error e => some (.error e)
  | .ok indices =>
    match exportIndices E tfs cfg (buildCtx E cfg indices) indices fuel with
    | none => none
    | some (.error e) => some (.error e)
    | some (.ok evs) =>
      match mirrorRes.2 with
      | .error e => some (.error e)
      | .ok _ => some (.ok (mirrorRes.1 ++ evs))

/-- C10: when the assets source directory is absent, the mirror fails
with `ReadDirectory` naming `content_path/assets` — not a no-op — and
the only filesystem action it has performed is creating the output
root, which happens before the failing directory read; when the rest of
the pipeline succeeds, this failure makes the whole build fail with
that very error. -/
theorem C10_missing_assets (E : ExtFns) (cfg : SiteConfig) (content : FsTree)
    (tfs : TemplateFs) (fuel : Nat) (indices : List Index) (evs : List FsEvent)
    (hload : load_and_parse_content E (cfg.content_path ++ [str "content"]) content =
      .ok indices)
    (hexp : exportIndices E tfs cfg (buildCtx E cfg indices) indices fuel =
      some (.ok evs)) :
    mirror_assets (cfg.content_path ++ [str "assets"]) cfg.output_path none =
      ([.createDirAll cfg.output_path],
        .error (.ReadDirectory (cfg.content_path ++ [str "assets"]))) ∧
    websiteBuild E cfg none content tfs fuel =
      some (.error (.ReadDirectory (cfg.content_path ++ [str "assets"]))) := by
  refine ⟨rfl, ?_⟩
  simp only [websiteBuild, hload, hexp]
  rfl

/-- Collaborators for the C10 witness (never exercised: the content
tree is empty). -/
def w10Ext : ExtFns :=
  { render := fun s => s
    parsePageMeta := fun _ => none
    parseIndexMeta := fun _ => none
    fIso := fun _ => []
    fUtc := fun _ => [] }

/-- Configuration for the C10 witness. -/
def w10Cfg : SiteConfig :=
  { content_path := [str "c"], output_path := [str "o"],
    site_title := [], site_description := [] }

/-- Empty content tree: the loader returns no indices. -/
def w10Content : FsTree := .dir [] []

/-- Witness for C10: on an empty content tree with no assets
directory, the whole build fails with `ReadDirectory c/assets`, and the
mirror's only event before failing is creating the output root. -/
theorem C10_missing_assets_witness :
    mirror_assets (w10Cfg.content_path ++ [str "assets"]) w10Cfg.output_path none =
      ([.createDirAll w10Cfg.output_path],
        .error (.ReadDirectory (w10Cfg.content_path ++ [str "assets"]))) ∧
    websiteBuild w10Ext w10Cfg none w10Content (fun _ => none) 0 =
      some (.error (.ReadDirectory (w10Cfg.content_path ++ [str "assets"]))) :=
  C10_missing_assets w10Ext w10Cfg w10Content (fun _ => none) 0 [] []
    (by
      rw [load_and_parse_content, loadLoop]
      show loadLoop w10Ext (w10Cfg.content_path ++ [str "content"]) [] [] = Except.ok []
      rw [loadLoop])
    (by rfl)
